import Mathlib

/-!
Shallow embedding of the hex-grid minesweeper in `src/try.py`.

The program keeps a flat Python list `hex_grid` of mutable `Hex` objects.
We model the grid as a `List Hex` of immutable records and every mutation
as a function returning the updated list.  All neighbor lookups in the
source are `next((h for h in hex_grid if h.q == nq and h.r == nr), None)`,
i.e. first-match-by-coordinates, which we render as `List.find?`; in-place
mutation of the found object is rendered as updating the first cell with
the given coordinates (`markRevealed`), which coincides with the source
semantics whenever coordinates are unique in the grid — an invariant of
every grid the program builds (`create_hex_grid`).

`random.choice` in `place_mines` is modelled by an explicit stream of
index picks; the unbounded `while` loop consumes one pick per iteration
and runs out of stream instead of diverging, returning `none`.
Python's unbounded recursion in `reveal_hex` is modelled with a fuel
parameter; we prove the result is independent of the fuel once the fuel
exceeds the number of unrevealed cells, which is the termination argument.
-/

/-- A cell of the hex grid: `Hex.__init__` in the source.  `color` is the
cosmetic RGB triple (default green `(0,255,0)`); it is carried but never
read by the game logic. -/
structure Hex where
  q : Int
  r : Int
  color : Int × Int × Int := (0, 255, 0)
  is_mine : Bool := false
  revealed : Bool := false
  adjacent_mines : Nat := 0
  deriving Repr, DecidableEq

/-- `Hex._directions`: the 6 axial neighbor offsets. -/
def hexDirections : List (Int × Int) :=
  [(1, 0), (0, 1), (-1, 1), (-1, 0), (0, -1), (1, -1)]

/-- Python's `range(lo, hi+1)` over integers, as a list. -/
def intRange (lo hi : Int) : List Int :=
  (List.range (hi + 1 - lo).toNat).map (fun i : Nat => lo + (i : Int))

/-- `create_hex_grid(rings)`: all `(q, r)` with `q, r ∈ [-rings, rings]`
and `s = -q-r ∈ [-rings, rings]`, each a fresh default `Hex`. -/
def create_hex_grid (rings : Int) : List Hex :=
  (intRange (-rings) rings).flatMap (fun q =>
    (intRange (-rings) rings).filterMap (fun r =>
      if -rings ≤ -q - r ∧ -q - r ≤ rings then some { q := q, r := r } else none))

/-- First cell of the grid with the given coordinates:
`next((h for h in hex_grid if h.q == q and h.r == r), None)`. -/
def findHex (g : List Hex) (q r : Int) : Option Hex :=
  g.find? (fun h => h.q == q && h.r == r)

/-- Set `revealed := true` on the first cell with the given coordinates
(the in-place mutation `hexagon.revealed = True` on the object returned
by the first-match lookup). -/
def markRevealed : List Hex → Int → Int → List Hex
  | [], _, _ => []
  | h :: t, q, r =>
    if h.q == q && h.r == r then { h with revealed := true } :: t
    else h :: markRevealed t q r

/-- The sound table built by `load_sounds()`: each flag says whether the
corresponding `.wav` file existed, i.e. whether `sounds[key]` is non-None. -/
structure Sounds where
  click : Bool
  reveal : Bool
  game_over : Bool
  deriving Repr, DecidableEq

/-- Observable audio side effects of a step. -/
inductive SndEvent where
  /-- `sounds["reveal"].play()` fired while revealing cell `(q, r)`. -/
  | revealSnd : Int → Int → SndEvent
  /-- `sounds["game_over"].play()` fired in `game_over`. -/
  | gameOverSnd : SndEvent
  deriving Repr, DecidableEq

/-- Number of cells of the grid not yet revealed; the fuel bound for the
flood fill. -/
def unrevealedCount (g : List Hex) : Nat :=
  g.countP (fun h => !h.revealed)

/-- `reveal_hex(hexagon, hex_grid, sounds)`.  Returns the updated grid
together with the audio events emitted, in order; the fold over
`hexDirections` is the `for direction in Hex._directions` loop.  `fuel`
bounds the recursion depth; `revealHex_fuel_stable` below shows any
`fuel ≥ unrevealedCount g` gives the same result, so the fuelled
function computes the (terminating) Python recursion. -/
def revealHex (snds : Sounds) : Nat → List Hex → Int → Int → List Hex × List SndEvent
  | 0, g, _, _ => (g, [])
  | fuel + 1, g, q, r =>
    match findHex g q r with
    | none => (g, [])
    | some h =>
      if h.revealed then (g, [])
      else
        let g' := markRevealed g q r
        let ev := if snds.reveal then [SndEvent.revealSnd q r] else []
        if h.adjacent_mines == 0 && !h.is_mine then
          hexDirections.foldl
            (fun acc d =>
              match findHex acc.1 (q + d.1) (r + d.2) with
              | none => acc
              | some _ =>
                let res := revealHex snds fuel acc.1 (q + d.1) (r + d.2)
                (res.1, acc.2 ++ res.2))
            (g', ev)
        else (g', ev)

/-- The `for direction in Hex._directions` loop of `reveal_hex`,
unrolled as recursion over the remaining direction list:
`revealHex_succ` proves it computes the fold in `revealHex`. -/
def revealDirs (snds : Sounds) (fuel : Nat) :
    List (Int × Int) → List Hex → Int → Int → List Hex × List SndEvent
  | [], g, _, _ => (g, [])
  | d :: ds, g, q, r =>
    match findHex g (q + d.1) (r + d.2) with
    | none => revealDirs snds fuel ds g q r
    | some _ =>
      let res := revealHex snds fuel g (q + d.1) (r + d.2)
      let res2 := revealDirs snds fuel ds res.1 q r
      (res2.1, res.2 ++ res2.2)

/-- The inner loop of `calculate_adjacent_mines`: how many of the 6
direction offsets from `(q, r)` land on a cell that exists and is a
mine (a missing neighbor contributes 0). -/
def mineNeighborCount (g : List Hex) (q r : Int) : Nat :=
  hexDirections.countP (fun d =>
    match findHex g (q + d.1) (r + d.2) with
    | some n => n.is_mine
    | none => false)

/-- `calculate_adjacent_mines(hex_grid)`: every non-mine cell gets the
count of its existing neighbors that are mines; mine cells are skipped
(`continue`).  The source mutates `adjacent_mines` in place while
scanning the live list, but the lookups only read `q`, `r`, `is_mine`,
which the pass never writes, so mapping over the original list is the
same function. -/
def calculate_adjacent_mines (g : List Hex) : List Hex :=
  g.map (fun h =>
    if h.is_mine then h
    else { h with adjacent_mines := mineNeighborCount g h.q h.r })

/-- Set `is_mine := true` on the cell at list position `i`
(`random.choice` returns the object itself, so the update is by
position, not by coordinates). -/
def setMineAt (g : List Hex) (i : Nat) : List Hex :=
  g.modify (fun h => { h with is_mine := true }) i

/-- One run of the `while mines_placed < num_mines` loop of
`place_mines`, consuming one random pick per iteration.  `rand` is the
stream of picks of `random.choice(hex_grid)` (an index into the list,
reduced mod its length); when the stream runs out before the loop
finishes the run is abandoned with `none` — a run of the source that
has not terminated within `rand.length` iterations. -/
def place_mines_loop : List Nat → List Hex → Nat → Nat → Option (List Hex)
  | [], g, placed, target => if target ≤ placed then some g else none
  | i :: rest, g, placed, target =>
    if target ≤ placed then some g
    else
      match g.get? (i % g.length) with
      | none => none
      | some h =>
        if h.is_mine then place_mines_loop rest g placed target
        else place_mines_loop rest (setMineAt g (i % g.length)) (placed + 1) target

/-- `place_mines(hex_grid, num_mines)` driven by the pick stream `rand`. -/
def place_mines (g : List Hex) (num_mines : Nat) (rand : List Nat) :
    Option (List Hex) :=
  place_mines_loop rand g 0 num_mines

/-- Number of mine cells in the grid. -/
def mineCount (g : List Hex) : Nat :=
  g.countP (fun h => h.is_mine)

/-! ### Hit testing and the click step

`HEX_SIZE = 40`.  The center of a cell is
`x = 40 * 1.5 * q + ox = 60 q + ox` and
`y = 40 * √3 * (r + q/2) + oy = (40 r + 20 q) √3 + oy`
(`Hex.center`), and a click at `(mx, my)` hits the cell when
`hypot(mx - cx, my - cy) < 40` (`main`).  Squaring (both sides are
nonnegative) the test is `dx² + dy² < 1600` with `dx = mx - 60 q - ox`
and `dy = u - b √3` where `u = my - oy` and `b = 40 r + 20 q`, i.e.

  `(dx² + u² + 3 b² - 1600) + (-2 u b) √3 < 0`,

an exact comparison in `ℤ[√3]`, decided by `sqrt3LtZero`.
`hexHit_iff_real` below proves this equals the real-number test of the
source formula. -/

/-- Decides `a + b √3 < 0` for integers `a`, `b` by exact sign analysis. -/
def sqrt3LtZero (a b : Int) : Bool :=
  if 0 ≤ b then decide (a < 0) && decide (3 * b * b < a * a)
  else decide (a ≤ 0) || decide (a * a < 3 * b * b)

/-- The hit test of `main`: the click `(mx, my)` is within one
`HEX_SIZE` radius of the center of `h` (offsets `ox`, `oy`). -/
def hexHit (mx my ox oy : Int) (h : Hex) : Bool :=
  let dx := mx - (60 * h.q + ox)
  let u := my - oy
  let b := 40 * h.r + 20 * h.q
  sqrt3LtZero (dx * dx + u * u + 3 * b * b - 1600) (-(2 * u * b))

/-- Outcome of processing one left-button `MOUSEBUTTONDOWN` event in
`main`: the grid afterwards, the audio events emitted, the `running`
flag, and whether the `game_over` path was taken (the session's Lost
state). -/
structure ClickOut where
  grid : List Hex
  events : List SndEvent
  running : Bool
  lost : Bool
  deriving Repr, DecidableEq

/-- The left-click handler of `main`: scan `hex_grid` in order, act on
the first cell whose center is within `HEX_SIZE` of the click and stop
(`break`).  A mine triggers `game_over` (game-over sound, `running =
False`); otherwise the cell is revealed via `reveal_hex`. -/
def clickStep (snds : Sounds) (fuel : Nat) (mx my ox oy : Int)
    (g : List Hex) : ClickOut :=
  match g.find? (hexHit mx my ox oy) with
  | none => ⟨g, [], true, false⟩
  | some h =>
    if h.is_mine then
      ⟨g, if snds.game_over then [SndEvent.gameOverSnd] else [], false, true⟩
    else
      let res := revealHex snds fuel g h.q h.r
      ⟨res.1, res.2, true, false⟩

/-- No two cells of the grid share an axial coordinate pair. -/
def coordsNodup (g : List Hex) : Prop :=
  (g.map (fun h => (h.q, h.r))).Nodup

instance (g : List Hex) : Decidable (coordsNodup g) := by
  unfold coordsNodup
  infer_instance

/-! ### Lemmas about `intRange` -/

theorem intRange_nil {lo hi : Int} (h : hi < lo) : intRange lo hi = [] := by
  unfold intRange
  have : (hi + 1 - lo).toNat = 0 := by omega
  simp [this]

theorem intRange_cons {lo hi : Int} (h : lo ≤ hi) :
    intRange lo hi = lo :: intRange (lo + 1) hi := by
  unfold intRange
  have h1 : (hi + 1 - lo).toNat = (hi + 1 - (lo + 1)).toNat + 1 := by omega
  rw [h1, List.range_succ_eq_map]
  simp only [List.map_cons, List.map_map]
  congr 1
  · simp
  · apply List.map_congr_left
    intro i _
    simp only [Function.comp_apply]
    push_cast
    ring

theorem intRange_snoc {lo hi : Int} (h : lo ≤ hi) :
    intRange lo hi = intRange lo (hi - 1) ++ [hi] := by
  unfold intRange
  have h1 : (hi + 1 - lo).toNat = (hi - 1 + 1 - lo).toNat + 1 := by omega
  rw [h1, List.range_succ]
  simp only [List.map_append, List.map_cons, List.map_nil]
  congr 2
  omega

theorem mem_intRange {x lo hi : Int} : x ∈ intRange lo hi ↔ lo ≤ x ∧ x ≤ hi := by
  unfold intRange
  simp only [List.mem_map, List.mem_range]
  constructor
  · rintro ⟨i, hi, rfl⟩
    omega
  · rintro ⟨h1, h2⟩
    refine ⟨(x - lo).toNat, by omega, ?_⟩
    show lo + ((x - lo).toNat : Int) = x
    omega

theorem nodup_intRange (lo hi : Int) : (intRange lo hi).Nodup := by
  unfold intRange
  have hinj : Function.Injective (fun i : Nat => lo + (i : Int)) := by
    intro a b hab
    simp only at hab
    omega
  exact (List.nodup_range _).map hinj

theorem countP_intRange (a b : Int) : ∀ (n : Nat) (lo hi : Int),
    (hi + 1 - lo).toNat = n →
    (intRange lo hi).countP (fun r => decide (a ≤ r) && decide (r ≤ b)) =
      (min (hi + 1) (b + 1) - max lo a).toNat := by
  intro n
  induction n with
  | zero =>
    intro lo hi hn
    rw [intRange_nil (by omega)]
    simp only [List.countP_nil]
    omega
  | succ n ih =>
    intro lo hi hn
    rw [intRange_cons (by omega), List.countP_cons, ih (lo + 1) hi (by omega)]
    by_cases h1 : a ≤ lo
    · by_cases h2 : lo ≤ b
      · simp only [h1, h2, decide_eq_true_eq, if_true, decide_True, Bool.and_self]
        omega
      · simp [h1, h2]
        omega
    · simp [h1]
      omega

theorem length_intRange (lo hi : Int) :
    (intRange lo hi).length = (hi + 1 - lo).toNat := by
  simp [intRange]

/-! ### Board construction (`create_hex_grid`) -/

theorem length_filterMap_ite {α β : Type} (g : α → β) (p : α → Prop)
    [DecidablePred p] (l : List α) :
    (l.filterMap (fun x => if p x then some (g x) else none)).length =
      l.countP (fun x => decide (p x)) := by
  induction l with
  | nil => simp
  | cons x t ih =>
    by_cases hx : p x <;>
      simp [List.filterMap_cons, List.countP_cons, hx, ih]

theorem sum_map_add_const {α : Type} (f : α → Nat) (k : Nat) (l : List α) :
    (l.map (fun x => f x + k)).sum = (l.map f).sum + k * l.length := by
  induction l with
  | nil => simp
  | cons x t ih => simp [ih]; ring

theorem length_create_hex_grid_sum (R : Int) :
    (create_hex_grid R).length =
      ((intRange (-R) R).map
        (fun q => (min (R + 1) (R - q + 1) - max (-R) (-R - q)).toNat)).sum := by
  unfold create_hex_grid
  rw [List.length_flatMap]
  congr 1
  apply List.map_congr_left
  intro q _
  simp only [Function.comp_apply]
  rw [length_filterMap_ite (fun r => ({ q := q, r := r } : Hex))
      (fun r => -R ≤ -q - r ∧ -q - r ≤ R)]
  have hpt : ∀ r ∈ intRange (-R) R,
      (decide (-R ≤ -q - r ∧ -q - r ≤ R) = true ↔
        (decide (-R - q ≤ r) && decide (r ≤ R - q)) = true) := by
    intro r _
    simp only [decide_eq_true_eq, Bool.and_eq_true]
    omega
  rw [List.countP_congr hpt, countP_intRange (-R - q) (R - q) _ (-R) R rfl]

theorem length_create_hex_grid {R : Int} (hR : 0 ≤ R) :
    ((create_hex_grid R).length : Int) = 3 * R ^ 2 + 3 * R + 1 := by
  refine Int.le_induction
    (P := fun R => ((create_hex_grid R).length : Int) = 3 * R ^ 2 + 3 * R + 1)
    ?_ ?_ R hR
  · decide
  · intro R hR ih
    have key : (create_hex_grid (R + 1)).length =
        (R + 2).toNat + ((create_hex_grid R).length + 2 * (R + R + 1).toNat)
          + (R + 2).toNat := by
      rw [length_create_hex_grid_sum (R + 1),
        intRange_cons (by omega : -(R + 1) ≤ R + 1),
        intRange_snoc (by omega : -(R + 1) + 1 ≤ R + 1)]
      have hlo : -(R + 1) + 1 = -R := by ring
      have hhi : R + 1 - 1 = R := by ring
      rw [hlo, hhi]
      rw [List.map_cons, List.map_append, List.map_cons, List.map_nil,
        List.sum_cons, List.sum_append, List.sum_cons, List.sum_nil]
      have hmid : (intRange (-R) R).map
          (fun q => (min (R + 1 + 1) (R + 1 - q + 1) - max (-(R + 1)) (-(R + 1) - q)).toNat) =
          (intRange (-R) R).map
          (fun q => (min (R + 1) (R - q + 1) - max (-R) (-R - q)).toNat + 2) := by
        apply List.map_congr_left
        intro q hq
        have hb := mem_intRange.mp hq
        omega
      rw [hmid, sum_map_add_const, ← length_create_hex_grid_sum R, length_intRange]
      have e1 : (min (R + 1 + 1) (R + 1 - -(R + 1) + 1) - max (-(R + 1)) (-(R + 1) - -(R + 1))).toNat
          = (R + 2).toNat := by omega
      have e2 : (min (R + 1 + 1) (R + 1 - (R + 1) + 1) - max (-(R + 1)) (-(R + 1) - (R + 1))).toNat
          = (R + 2).toNat := by omega
      have e3 : (R + 1 - -R).toNat = (R + R + 1).toNat := by omega
      rw [e1, e2, e3]
      omega
    rw [key]
    push_cast [Int.toNat_of_nonneg (by omega : (0:Int) ≤ R + 2),
      Int.toNat_of_nonneg (by omega : (0:Int) ≤ R + R + 1)]
    rw [ih]
    ring

theorem mem_create_hex_grid {R : Int} {h : Hex} :
    h ∈ create_hex_grid R ↔
      -R ≤ h.q ∧ h.q ≤ R ∧ -R ≤ h.r ∧ h.r ≤ R ∧
        -R ≤ -h.q - h.r ∧ -h.q - h.r ≤ R ∧ h = { q := h.q, r := h.r } := by
  unfold create_hex_grid
  simp only [List.mem_flatMap, List.mem_filterMap, mem_intRange,
    Option.ite_none_right_eq_some, Option.some.injEq]
  constructor
  · rintro ⟨q, hq, r, hr, hcond, rfl⟩
    simp only [and_assoc]
    exact ⟨hq.1, hq.2, hr.1, hr.2, hcond.1, hcond.2, trivial⟩
  · rintro ⟨h1, h2, h3, h4, h5, h6, hmk⟩
    exact ⟨h.q, ⟨h1, h2⟩, h.r, ⟨h3, h4⟩, ⟨h5, h6⟩, hmk.symm⟩

theorem coordsNodup_create_hex_grid (R : Int) :
    coordsNodup (create_hex_grid R) := by
  unfold coordsNodup create_hex_grid
  rw [List.map_flatMap]
  rw [List.nodup_flatMap]
  constructor
  · intro q _
    rw [List.map_filterMap]
    apply (nodup_intRange (-R) R).filterMap
    intro r r' p hp hp'
    by_cases hc1 : -R ≤ -q - r ∧ -q - r ≤ R
    · by_cases hc2 : -R ≤ -q - r' ∧ -q - r' ≤ R
      · rw [if_pos hc1, Option.map_some'] at hp
        rw [if_pos hc2, Option.map_some'] at hp'
        have e1 : r = p.2 := by cases hp; rfl
        have e2 : r' = p.2 := by cases hp'; rfl
        omega
      · rw [if_neg hc2, Option.map_none'] at hp'
        cases hp'
    · rw [if_neg hc1, Option.map_none'] at hp
      cases hp
  · have : ∀ q : Int, ∀ p ∈ ((intRange (-R) R).filterMap (fun r =>
        if -R ≤ -q - r ∧ -q - r ≤ R then some ({ q := q, r := r } : Hex) else none)).map
          (fun h => (h.q, h.r)), p.1 = q := by
      intro q p hp
      simp only [List.mem_map, List.mem_filterMap] at hp
      obtain ⟨h, ⟨r, _, hc⟩, rfl⟩ := hp
      split at hc <;> cases hc
      rfl
    refine List.Pairwise.imp_of_mem ?_ ((nodup_intRange (-R) R) : _)
    intro q q' hq hq' hne
    rw [Function.onFun]
    intro x hx hx'
    have e1 := this q x hx
    have e2 := this q' x hx'
    exact hne (e1 ▸ e2)

/-! ### The reveal pass only flips `revealed` from `false` to `true`

`cellLe a b` says `b` is `a` with `revealed` possibly turned on; `gridLe`
is its pointwise lifting.  Every grid the flood fill produces is
`gridLe`-above its input, which is the monotonicity invariant of
section 3 of the spec ("Cells mutate only `revealed`"). -/

def cellLe (a b : Hex) : Prop :=
  a.q = b.q ∧ a.r = b.r ∧ a.color = b.color ∧ a.is_mine = b.is_mine ∧
    a.adjacent_mines = b.adjacent_mines ∧ (a.revealed = true → b.revealed = true)

def gridLe : List Hex → List Hex → Prop :=
  List.Forall₂ cellLe

theorem cellLe_refl (a : Hex) : cellLe a a :=
  ⟨rfl, rfl, rfl, rfl, rfl, id⟩

theorem cellLe_trans {a b c : Hex} (h1 : cellLe a b) (h2 : cellLe b c) :
    cellLe a c := by
  obtain ⟨e1, e2, e3, e4, e5, e6⟩ := h1
  obtain ⟨f1, f2, f3, f4, f5, f6⟩ := h2
  exact ⟨e1.trans f1, e2.trans f2, e3.trans f3, e4.trans f4, e5.trans f5,
    fun hr => f6 (e6 hr)⟩

theorem gridLe_refl (g : List Hex) : gridLe g g := by
  induction g with
  | nil => exact List.Forall₂.nil
  | cons a t ih => exact List.Forall₂.cons (cellLe_refl a) ih

theorem gridLe_trans {a b c : List Hex} (h1 : gridLe a b) (h2 : gridLe b c) :
    gridLe a c := by
  induction h1 generalizing c with
  | nil => cases h2; exact List.Forall₂.nil
  | cons hab _ ih =>
    cases h2 with
    | cons hbc h2 => exact List.Forall₂.cons (cellLe_trans hab hbc) (ih h2)

theorem gridLe_length {g g' : List Hex} (h : gridLe g g') :
    g.length = g'.length :=
  List.Forall₂.length_eq h

theorem gridLe_get? {g g' : List Hex} (hle : gridLe g g') :
    ∀ i c, g.get? i = some c → ∃ c', g'.get? i = some c' ∧ cellLe c c' := by
  induction hle with
  | nil => intro i c hc; simp at hc
  | cons hab _ ih =>
    intro i c hc
    cases i with
    | zero =>
      simp only [List.get?_cons_zero, Option.some.injEq] at hc
      exact ⟨_, rfl, hc ▸ hab⟩
    | succ i => exact ih i c hc

theorem findHex_cons (a : Hex) (t : List Hex) (q r : Int) :
    findHex (a :: t) q r =
      if a.q == q && a.r == r then some a else findHex t q r := by
  unfold findHex
  rw [List.find?_cons]
  cases a.q == q && a.r == r <;> rfl

/-- First-match lookup respects `gridLe`: same position, related cell. -/
theorem findHex_gridLe {g : List Hex} : ∀ {g' : List Hex}, gridLe g g' → ∀ q r : Int,
    (findHex g q r = none ∧ findHex g' q r = none) ∨
      ∃ h h', findHex g q r = some h ∧ findHex g' q r = some h' ∧ cellLe h h' := by
  induction g with
  | nil =>
    intro g' hle q r
    cases hle
    exact Or.inl ⟨rfl, rfl⟩
  | cons a t ih =>
    intro g' hle q r
    cases hle with
    | cons hab hrest =>
      rename_i b t'
      rw [findHex_cons, findHex_cons]
      by_cases hpa : (a.q == q && a.r == r) = true
      · have hpb : (b.q == q && b.r == r) = true := by
          rw [← hab.1, ← hab.2.1]; exact hpa
        rw [if_pos hpa, if_pos hpb]
        exact Or.inr ⟨a, b, rfl, rfl, hab⟩
      · have hpb : ¬(b.q == q && b.r == r) = true := by
          rw [← hab.1, ← hab.2.1]; exact hpa
        rw [if_neg hpa, if_neg hpb]
        exact ih hrest q r

theorem findHex_some_le {g g' : List Hex} (hle : gridLe g g') {q r : Int}
    {h : Hex} (hf : findHex g q r = some h) :
    ∃ h', findHex g' q r = some h' ∧ cellLe h h' := by
  rcases findHex_gridLe hle q r with ⟨h1, _⟩ | ⟨a, b, ha, hb, hab⟩
  · rw [hf] at h1; cases h1
  · rw [hf] at ha; cases ha; exact ⟨b, hb, hab⟩

theorem findHex_some_ge {g g' : List Hex} (hle : gridLe g g') {q r : Int}
    {h' : Hex} (hf : findHex g' q r = some h') :
    ∃ h, findHex g q r = some h ∧ cellLe h h' := by
  rcases findHex_gridLe hle q r with ⟨_, h2⟩ | ⟨a, b, ha, hb, hab⟩
  · rw [hf] at h2; cases h2
  · rw [hf] at hb; cases hb; exact ⟨a, ha, hab⟩

theorem findHex_none_iff {g g' : List Hex} (hle : gridLe g g') (q r : Int) :
    findHex g q r = none ↔ findHex g' q r = none := by
  rcases findHex_gridLe hle q r with ⟨h1, h2⟩ | ⟨a, b, ha, hb, _⟩
  · rw [h1, h2]
  · rw [ha, hb]; simp

/-- The cell at `(q, r)` exists and is revealed. -/
def Rev (g : List Hex) (q r : Int) : Prop :=
  ∃ h, findHex g q r = some h ∧ h.revealed = true

/-- The cell at `(q, r)` exists, is not a mine and has no adjacent
mines: the flood fill recurses out of exactly these cells. -/
def isZeroCell (g : List Hex) (q r : Int) : Prop :=
  ∃ h, findHex g q r = some h ∧ h.is_mine = false ∧ h.adjacent_mines = 0

theorem Rev_mono {g g' : List Hex} (hle : gridLe g g') {q r : Int}
    (h : Rev g q r) : Rev g' q r := by
  obtain ⟨h0, hf, hr⟩ := h
  obtain ⟨h1, hf1, hle1⟩ := findHex_some_le hle hf
  exact ⟨h1, hf1, hle1.2.2.2.2.2 hr⟩

theorem isZeroCell_iff {g g' : List Hex} (hle : gridLe g g') (q r : Int) :
    isZeroCell g q r ↔ isZeroCell g' q r := by
  constructor
  · rintro ⟨h0, hf, hm, ha⟩
    obtain ⟨h1, hf1, hle1⟩ := findHex_some_le hle hf
    exact ⟨h1, hf1, hle1.2.2.2.1 ▸ hm, hle1.2.2.2.2.1 ▸ ha⟩
  · rintro ⟨h1, hf1, hm, ha⟩
    obtain ⟨h0, hf0, hle0⟩ := findHex_some_ge hle hf1
    exact ⟨h0, hf0, hle0.2.2.2.1.trans hm, hle0.2.2.2.2.1.trans ha⟩

theorem findHex_isSome_iff {g g' : List Hex} (hle : gridLe g g') (q r : Int) :
    (findHex g q r).isSome ↔ (findHex g' q r).isSome := by
  rcases findHex_gridLe hle q r with ⟨h1, h2⟩ | ⟨a, b, ha, hb, _⟩
  · rw [h1, h2]
  · rw [ha, hb]; simp

/-! ### `markRevealed` lemmas -/

theorem markRevealed_length (g : List Hex) (q r : Int) :
    (markRevealed g q r).length = g.length := by
  induction g with
  | nil => rfl
  | cons a t ih =>
    unfold markRevealed
    split
    · rfl
    · simpa using ih

theorem markRevealed_gridLe (g : List Hex) (q r : Int) :
    gridLe g (markRevealed g q r) := by
  induction g with
  | nil => exact List.Forall₂.nil
  | cons a t ih =>
    unfold markRevealed
    split
    · exact List.Forall₂.cons ⟨rfl, rfl, rfl, rfl, rfl, fun _ => rfl⟩ (gridLe_refl t)
    · exact List.Forall₂.cons (cellLe_refl a) ih

theorem findHex_markRevealed_self {g : List Hex} {q r : Int} {h : Hex}
    (hf : findHex g q r = some h) :
    findHex (markRevealed g q r) q r = some { h with revealed := true } := by
  induction g with
  | nil => cases hf
  | cons a t ih =>
    rw [findHex_cons] at hf
    unfold markRevealed
    by_cases hpa : (a.q == q && a.r == r) = true
    · rw [if_pos hpa] at hf
      cases hf
      rw [if_pos hpa, findHex_cons]
      have hpb : (({ h with revealed := true } : Hex).q == q &&
          ({ h with revealed := true } : Hex).r == r) = true := hpa
      rw [if_pos hpb]
    · rw [if_neg hpa] at hf
      rw [if_neg hpa, findHex_cons, if_neg hpa]
      exact ih hf

theorem findHex_markRevealed_ne {q r x y : Int}
    (hne : ¬(x = q ∧ y = r)) : ∀ g : List Hex,
    findHex (markRevealed g q r) x y = findHex g x y := by
  intro g
  induction g with
  | nil => rfl
  | cons a t ih =>
    unfold markRevealed
    by_cases hpa : (a.q == q && a.r == r) = true
    · rw [if_pos hpa, findHex_cons, findHex_cons]
      have hpx : ¬(a.q == x && a.r == y) = true := by
        simp only [Bool.and_eq_true, beq_iff_eq] at hpa ⊢
        rintro ⟨hx1, hx2⟩
        exact hne ⟨by omega, by omega⟩
      have hpx2 : ¬(({ a with revealed := true } : Hex).q == x &&
          ({ a with revealed := true } : Hex).r == y) = true := hpx
      rw [if_neg hpx, if_neg hpx2]
    · rw [if_neg hpa, findHex_cons, findHex_cons]
      by_cases hpx : (a.q == x && a.r == y) = true
      · rw [if_pos hpx, if_pos hpx]
      · rw [if_neg hpx, if_neg hpx]
        exact ih

theorem markRevealed_get? (g : List Hex) (q r : Int) :
    ∀ i c, g.get? i = some c →
      (markRevealed g q r).get? i = some c ∨
        ((c.q = q ∧ c.r = r) ∧
          (markRevealed g q r).get? i = some { c with revealed := true }) := by
  induction g with
  | nil => intro i c hc; simp at hc
  | cons a t ih =>
    intro i c hc
    unfold markRevealed
    cases i with
    | zero =>
      simp only [List.get?_cons_zero, Option.some.injEq] at hc
      cases hc
      by_cases hpa : (a.q == q && a.r == r) = true
      · rw [if_pos hpa]
        simp only [Bool.and_eq_true, beq_iff_eq] at hpa
        exact Or.inr ⟨hpa, rfl⟩
      · rw [if_neg hpa]
        exact Or.inl rfl
    | succ i =>
      simp only [List.get?_cons_succ] at hc
      by_cases hpa : (a.q == q && a.r == r) = true
      · rw [if_pos hpa]
        exact Or.inl hc
      · rw [if_neg hpa]
        simpa using ih i c hc

theorem unrevealedCount_markRevealed {q r : Int} : ∀ {g : List Hex} {h : Hex},
    findHex g q r = some h → h.revealed = false →
    unrevealedCount (markRevealed g q r) + 1 = unrevealedCount g := by
  intro g
  induction g with
  | nil => intro h hf; cases hf
  | cons a t ih =>
    intro h hf hrev
    rw [findHex_cons] at hf
    unfold markRevealed unrevealedCount
    by_cases hpa : (a.q == q && a.r == r) = true
    · rw [if_pos hpa] at hf
      cases hf
      rw [if_pos hpa]
      simp only [List.countP_cons, hrev]
      simp [unrevealedCount]
    · rw [if_neg hpa] at hf
      rw [if_neg hpa]
      simp only [List.countP_cons]
      have := ih hf hrev
      unfold unrevealedCount at this
      omega

theorem unrevealedCount_le_of_gridLe {g : List Hex} : ∀ {g' : List Hex},
    gridLe g g' → unrevealedCount g' ≤ unrevealedCount g := by
  induction g with
  | nil =>
    intro g' hle
    cases hle
    exact le_refl _
  | cons a t ih =>
    intro g' hle
    cases hle with
    | cons hab hrest =>
      rename_i b t'
      unfold unrevealedCount
      simp only [List.countP_cons]
      have h1 : (if (!b.revealed) = true then 1 else 0) ≤
          (if (!a.revealed) = true then (1 : Nat) else 0) := by
        have := hab.2.2.2.2.2
        cases ha : a.revealed <;> cases hb : b.revealed <;> simp_all
      have h2 := ih hrest
      unfold unrevealedCount at h2
      omega

/-! ### Unfolding the flood-fill recursion through `revealDirs` -/

theorem foldl_revealDirs (snds : Sounds) (fuel : Nat) (q r : Int) :
    ∀ (ds : List (Int × Int)) (g : List Hex) (ev : List SndEvent),
      ds.foldl
        (fun acc d =>
          match findHex acc.1 (q + d.1) (r + d.2) with
          | none => acc
          | some _ =>
            let res := revealHex snds fuel acc.1 (q + d.1) (r + d.2)
            (res.1, acc.2 ++ res.2))
        (g, ev) =
      ((revealDirs snds fuel ds g q r).1,
        ev ++ (revealDirs snds fuel ds g q r).2) := by
  intro ds
  induction ds with
  | nil =>
    intro g ev
    rw [revealDirs]
    simp
  | cons d ds ih =>
    intro g ev
    rw [List.foldl_cons, revealDirs]
    cases hfd : findHex g (q + d.1) (r + d.2) with
    | none =>
      simp only [hfd]
      exact ih g ev
    | some h0 =>
      simp only [hfd]
      rw [ih]
      simp

theorem revealHex_succ (snds : Sounds) (fuel : Nat) (g : List Hex) (q r : Int) :
    revealHex snds (fuel + 1) g q r =
      match findHex g q r with
      | none => (g, [])
      | some h =>
        if h.revealed then (g, [])
        else
          let g' := markRevealed g q r
          let ev := if snds.reveal then [SndEvent.revealSnd q r] else []
          if h.adjacent_mines == 0 && !h.is_mine then
            let res := revealDirs snds fuel hexDirections g' q r
            (res.1, ev ++ res.2)
          else (g', ev) := by
  rw [revealHex]
  cases hf : findHex g q r with
  | none => rfl
  | some h =>
    simp only
    by_cases hrevd : h.revealed = true
    · rw [if_pos hrevd, if_pos hrevd]
    · rw [if_neg hrevd, if_neg hrevd]
      by_cases hz : (h.adjacent_mines == 0 && !h.is_mine) = true
      · rw [if_pos hz, if_pos hz]
        exact foldl_revealDirs snds fuel q r hexDirections (markRevealed g q r) _
      · rw [if_neg hz, if_neg hz]

/-! ### Monotonicity of the flood fill -/

theorem revealHex_gridLe_all (s : Sounds) : ∀ fuel : Nat,
    (∀ g q r, gridLe g (revealHex s fuel g q r).1) ∧
    (∀ ds g q r, gridLe g (revealDirs s fuel ds g q r).1) := by
  intro fuel
  induction fuel with
  | zero =>
    constructor
    · intro g q r
      rw [revealHex]
      exact gridLe_refl g
    · intro ds
      induction ds with
      | nil =>
        intro g q r
        rw [revealDirs]
        exact gridLe_refl g
      | cons d ds ihd =>
        intro g q r
        rw [revealDirs]
        cases hfd : findHex g (q + d.1) (r + d.2) with
        | none =>
          simp only [hfd]
          exact ihd g q r
        | some h0 =>
          simp only [hfd, revealHex]
          exact ihd g q r
  | succ fuel ih =>
    have hrev : ∀ g q r, gridLe g (revealHex s (fuel + 1) g q r).1 := by
      intro g q r
      rw [revealHex_succ]
      cases hf : findHex g q r with
      | none =>
        simp only [hf]
        exact gridLe_refl g
      | some h =>
        simp only [hf]
        by_cases hrevd : h.revealed = true
        · rw [if_pos hrevd]
          exact gridLe_refl g
        · rw [if_neg hrevd]
          by_cases hz : (h.adjacent_mines == 0 && !h.is_mine) = true
          · rw [if_pos hz]
            exact gridLe_trans (markRevealed_gridLe g q r)
              (ih.2 hexDirections (markRevealed g q r) q r)
          · rw [if_neg hz]
            exact markRevealed_gridLe g q r
    refine ⟨hrev, ?_⟩
    intro ds
    induction ds with
    | nil =>
      intro g q r
      rw [revealDirs]
      exact gridLe_refl g
    | cons d ds ihd =>
      intro g q r
      rw [revealDirs]
      cases hfd : findHex g (q + d.1) (r + d.2) with
      | none =>
        simp only [hfd]
        exact ihd g q r
      | some h0 =>
        simp only [hfd]
        exact gridLe_trans (hrev g (q + d.1) (r + d.2))
          (ihd (revealHex s (fuel + 1) g (q + d.1) (r + d.2)).1 q r)

theorem revealHex_gridLe (s : Sounds) (fuel : Nat) (g : List Hex) (q r : Int) :
    gridLe g (revealHex s fuel g q r).1 :=
  (revealHex_gridLe_all s fuel).1 g q r

theorem revealDirs_gridLe (s : Sounds) (fuel : Nat) (ds : List (Int × Int))
    (g : List Hex) (q r : Int) :
    gridLe g (revealDirs s fuel ds g q r).1 :=
  (revealHex_gridLe_all s fuel).2 ds g q r

/-! ### Termination of the flood fill: the result is fuel-independent
once the fuel covers the number of unrevealed cells -/

theorem revealed_of_unrevealedCount_zero {g : List Hex} {q r : Int} {h : Hex}
    (hu : unrevealedCount g = 0) (hf : findHex g q r = some h) :
    h.revealed = true := by
  unfold findHex at hf
  have hm : h ∈ g := List.mem_of_find?_eq_some hf
  unfold unrevealedCount at hu
  have := (List.countP_eq_zero.mp hu) h hm
  simpa using this

theorem revealHex_all_revealed (s : Sounds) : ∀ fuel : Nat,
    (∀ g q r, unrevealedCount g = 0 → revealHex s fuel g q r = (g, [])) ∧
    (∀ ds g q r, unrevealedCount g = 0 → revealDirs s fuel ds g q r = (g, [])) := by
  intro fuel
  induction fuel with
  | zero =>
    constructor
    · intro g q r _
      rw [revealHex]
    · intro ds
      induction ds with
      | nil =>
        intro g q r _
        rw [revealDirs]
      | cons d ds ihd =>
        intro g q r hu
        rw [revealDirs]
        cases hfd : findHex g (q + d.1) (r + d.2) with
        | none =>
          simp only [hfd]
          exact ihd g q r hu
        | some h0 =>
          simp only [hfd, revealHex]
          simpa using ihd g q r hu
  | succ fuel ih =>
    have hrev : ∀ g q r, unrevealedCount g = 0 →
        revealHex s (fuel + 1) g q r = (g, []) := by
      intro g q r hu
      rw [revealHex_succ]
      cases hf : findHex g q r with
      | none => simp [hf]
      | some h =>
        simp only [hf]
        rw [if_pos (revealed_of_unrevealedCount_zero hu hf)]
    refine ⟨hrev, ?_⟩
    intro ds
    induction ds with
    | nil =>
      intro g q r _
      rw [revealDirs]
    | cons d ds ihd =>
      intro g q r hu
      rw [revealDirs]
      cases hfd : findHex g (q + d.1) (r + d.2) with
      | none =>
        simp only [hfd]
        exact ihd g q r hu
      | some h0 =>
        simp only [hfd, hrev g (q + d.1) (r + d.2) hu]
        simpa using ihd g q r hu

theorem revealHex_fuel_succ_all (s : Sounds) : ∀ fuel : Nat,
    (∀ g q r, unrevealedCount g ≤ fuel →
      revealHex s (fuel + 1) g q r = revealHex s fuel g q r) ∧
    (∀ ds g q r, unrevealedCount g ≤ fuel →
      revealDirs s (fuel + 1) ds g q r = revealDirs s fuel ds g q r) := by
  intro fuel
  induction fuel with
  | zero =>
    constructor
    · intro g q r hu
      rw [(revealHex_all_revealed s 1).1 g q r (by omega),
        (revealHex_all_revealed s 0).1 g q r (by omega)]
    · intro ds g q r hu
      rw [(revealHex_all_revealed s 1).2 ds g q r (by omega),
        (revealHex_all_revealed s 0).2 ds g q r (by omega)]
  | succ fuel ih =>
    have hrev : ∀ g q r, unrevealedCount g ≤ fuel + 1 →
        revealHex s (fuel + 1 + 1) g q r = revealHex s (fuel + 1) g q r := by
      intro g q r hu
      rw [revealHex_succ]
      conv_rhs => rw [revealHex_succ]
      cases hf : findHex g q r with
      | none => simp [hf]
      | some h =>
        simp only [hf]
        by_cases hrevd : h.revealed = true
        · rw [if_pos hrevd, if_pos hrevd]
        · rw [if_neg hrevd, if_neg hrevd]
          by_cases hz : (h.adjacent_mines == 0 && !h.is_mine) = true
          · rw [if_pos hz, if_pos hz]
            have hu' : unrevealedCount (markRevealed g q r) ≤ fuel := by
              have := unrevealedCount_markRevealed hf
                (by simpa using hrevd)
              omega
            rw [ih.2 hexDirections (markRevealed g q r) q r hu']
          · rw [if_neg hz, if_neg hz]
    refine ⟨hrev, ?_⟩
    intro ds
    induction ds with
    | nil =>
      intro g q r _
      rw [revealDirs]
      conv_rhs => rw [revealDirs]
    | cons d ds ihd =>
      intro g q r hu
      rw [revealDirs]
      conv_rhs => rw [revealDirs]
      cases hfd : findHex g (q + d.1) (r + d.2) with
      | none =>
        simp only [hfd]
        exact ihd g q r hu
      | some h0 =>
        simp only [hfd]
        rw [hrev g (q + d.1) (r + d.2) hu]
        have hu' : unrevealedCount (revealHex s (fuel + 1) g (q + d.1) (r + d.2)).1 ≤
            fuel + 1 :=
          le_trans (unrevealedCount_le_of_gridLe
            (revealHex_gridLe s (fuel + 1) g (q + d.1) (r + d.2))) hu
        rw [ihd (revealHex s (fuel + 1) g (q + d.1) (r + d.2)).1 q r hu']

theorem revealHex_fuel_stable (s : Sounds) {g : List Hex} (q r : Int)
    {fuel : Nat} (hfuel : unrevealedCount g ≤ fuel) :
    revealHex s fuel g q r = revealHex s (unrevealedCount g) g q r := by
  obtain ⟨k, rfl⟩ : ∃ k, fuel = unrevealedCount g + k := ⟨fuel - unrevealedCount g, by omega⟩
  induction k with
  | zero => rfl
  | succ k ihk =>
    have : unrevealedCount g + (k + 1) = (unrevealedCount g + k) + 1 := by omega
    rw [this, (revealHex_fuel_succ_all s (unrevealedCount g + k)).1 g q r (by omega)]
    exact ihk (by omega)

/-- The call target itself ends up revealed whenever it exists. -/
theorem revealHex_target (s : Sounds) {fuel : Nat} {g : List Hex} {q r : Int}
    {h : Hex} (hfuel : unrevealedCount g ≤ fuel) (hf : findHex g q r = some h) :
    Rev (revealHex s fuel g q r).1 q r := by
  cases fuel with
  | zero =>
    rw [revealHex]
    exact ⟨h, hf, revealed_of_unrevealedCount_zero (by omega) hf⟩
  | succ fuel =>
    rw [revealHex_succ]
    cases hf2 : findHex g q r with
    | none => rw [hf] at hf2; cases hf2
    | some h2 =>
      rw [hf] at hf2
      cases hf2
      simp only
      by_cases hrevd : h.revealed = true
      · rw [if_pos hrevd]
        exact ⟨h, hf, hrevd⟩
      · rw [if_neg hrevd]
        have hself := findHex_markRevealed_self hf
        by_cases hz : (h.adjacent_mines == 0 && !h.is_mine) = true
        · rw [if_pos hz]
          exact Rev_mono
            (revealDirs_gridLe s fuel hexDirections (markRevealed g q r) q r)
            ⟨_, hself, rfl⟩
        · rw [if_neg hz]
          exact ⟨_, hself, rfl⟩

/-! ### The connected zero-region

`zeroComp g cq cr x y` says the cell `(x, y)` lies in the connected
component (via the 6 axial directions, restricted to cells present in
the board) of zero-adjacency non-mine cells that contains `(cq, cr)`.
`ZComp` is the same set extended with the bordering cells: reachability
where every step leaves a zero-adjacency non-mine cell; it is the shape
the flood-fill recursion itself follows. -/

def neighborOf (a b x y : Int) : Prop :=
  ∃ d ∈ hexDirections, x = a + d.1 ∧ y = b + d.2

inductive zeroComp (g : List Hex) (cq cr : Int) : Int → Int → Prop where
  | refl : zeroComp g cq cr cq cr
  | step {a b x y : Int} : zeroComp g cq cr a b → neighborOf a b x y →
      isZeroCell g x y → zeroComp g cq cr x y

inductive ZComp (g : List Hex) (cq cr : Int) : Int → Int → Prop where
  | refl : ZComp g cq cr cq cr
  | step {a b x y : Int} : ZComp g cq cr a b → isZeroCell g a b →
      neighborOf a b x y → (findHex g x y).isSome = true → ZComp g cq cr x y

theorem ZComp_of_gridLe {g g' : List Hex} (hle : gridLe g g') {cq cr x y : Int}
    (h : ZComp g cq cr x y) : ZComp g' cq cr x y := by
  induction h with
  | refl => exact ZComp.refl
  | step _ hz hn hs ih =>
    exact ZComp.step ih ((isZeroCell_iff hle _ _).mp hz) hn
      ((findHex_isSome_iff hle _ _).mp hs)

theorem ZComp_of_gridLe_rev {g g' : List Hex} (hle : gridLe g g')
    {cq cr x y : Int} (h : ZComp g' cq cr x y) : ZComp g cq cr x y := by
  induction h with
  | refl => exact ZComp.refl
  | step _ hz hn hs ih =>
    exact ZComp.step ih ((isZeroCell_iff hle _ _).mpr hz) hn
      ((findHex_isSome_iff hle _ _).mpr hs)

theorem ZComp_prepend {g : List Hex} {cq cr nx ny x y : Int}
    (hz : isZeroCell g cq cr) (hn : neighborOf cq cr nx ny)
    (hs : (findHex g nx ny).isSome = true) (hp : ZComp g nx ny x y) :
    ZComp g cq cr x y := by
  induction hp with
  | refl => exact ZComp.step ZComp.refl hz hn hs
  | step _ hz2 hn2 hs2 ih => exact ZComp.step ih hz2 hn2 hs2

theorem zeroComp_isZero {g : List Hex} {cq cr x y : Int}
    (hz : isZeroCell g cq cr) (h : zeroComp g cq cr x y) :
    isZeroCell g x y := by
  induction h with
  | refl => exact hz
  | step _ _ hz2 _ => exact hz2

theorem zeroComp_to_ZComp {g : List Hex} {cq cr x y : Int}
    (hz : isZeroCell g cq cr) (h : zeroComp g cq cr x y) :
    ZComp g cq cr x y := by
  induction h with
  | step hp hn hz2 ih =>
    refine ZComp.step ih (zeroComp_isZero hz hp) hn ?_
    obtain ⟨h2, hf2, _⟩ := hz2
    rw [hf2]
    rfl
  | refl => exact ZComp.refl

theorem ZComp_iff_zeroComp {g : List Hex} {cq cr x y : Int}
    (hz : isZeroCell g cq cr) :
    ZComp g cq cr x y ↔
      (zeroComp g cq cr x y ∨
        ∃ a b, zeroComp g cq cr a b ∧ neighborOf a b x y ∧
          (findHex g x y).isSome = true) := by
  constructor
  · intro h
    induction h with
    | refl => exact Or.inl zeroComp.refl
    | step hp hza hn hs ih =>
      rename_i a b x2 y2
      have hab : zeroComp g cq cr a b := by
        rcases ih with h1 | ⟨u, v, hu, hnu, _⟩
        · exact h1
        · exact zeroComp.step hu hnu hza
      by_cases hzx : isZeroCell g x2 y2
      · exact Or.inl (zeroComp.step hab hn hzx)
      · exact Or.inr ⟨a, b, hab, hn, hs⟩
  · rintro (h | ⟨a, b, hab, hn, hs⟩)
    · exact zeroComp_to_ZComp hz h
    · exact ZComp.step (zeroComp_to_ZComp hz hab) (zeroComp_isZero hz hab) hn hs

/-! ### Soundness: every newly revealed cell lies in the reach set -/

theorem revealHex_sound_all (s : Sounds) : ∀ fuel : Nat,
    (∀ g q r i c c', g.get? i = some c →
      (revealHex s fuel g q r).1.get? i = some c' → c'.revealed = true →
      c.revealed = true ∨ ZComp g q r c.q c.r) ∧
    (∀ ds g q r i c c', g.get? i = some c →
      (revealDirs s fuel ds g q r).1.get? i = some c' → c'.revealed = true →
      c.revealed = true ∨ ∃ d ∈ ds, (findHex g (q + d.1) (r + d.2)).isSome = true ∧
        ZComp g (q + d.1) (r + d.2) c.q c.r) := by
  intro fuel
  induction fuel with
  | zero =>
    constructor
    · intro g q r i c c' hc hc' hrev
      rw [revealHex] at hc'
      rw [hc] at hc'
      cases hc'
      exact Or.inl hrev
    · intro ds
      induction ds with
      | nil =>
        intro g q r i c c' hc hc' hrev
        rw [revealDirs] at hc'
        rw [hc] at hc'
        cases hc'
        exact Or.inl hrev
      | cons d ds ihd =>
        intro g q r i c c' hc hc' hrev
        rw [revealDirs] at hc'
        cases hfd : findHex g (q + d.1) (r + d.2) with
        | none =>
          simp only [hfd] at hc'
          rcases ihd g q r i c c' hc hc' hrev with h1 | ⟨d', hd', hs', hz'⟩
          · exact Or.inl h1
          · exact Or.inr ⟨d', List.mem_cons_of_mem d hd', hs', hz'⟩
        | some h0 =>
          simp only [hfd, revealHex] at hc'
          rcases ihd g q r i c c' hc hc' hrev with h1 | ⟨d', hd', hs', hz'⟩
          · exact Or.inl h1
          · exact Or.inr ⟨d', List.mem_cons_of_mem d hd', hs', hz'⟩
  | succ fuel ih =>
    have hex : ∀ g q r i c c', g.get? i = some c →
        (revealHex s (fuel + 1) g q r).1.get? i = some c' → c'.revealed = true →
        c.revealed = true ∨ ZComp g q r c.q c.r := by
      intro g q r i c c' hc hc' hrev
      rw [revealHex_succ] at hc'
      cases hf : findHex g q r with
      | none =>
        simp only [hf] at hc'
        rw [hc] at hc'
        cases hc'
        exact Or.inl hrev
      | some h =>
        simp only [hf] at hc'
        by_cases hrevd : h.revealed = true
        · rw [if_pos hrevd] at hc'
          rw [hc] at hc'
          cases hc'
          exact Or.inl hrev
        · rw [if_neg hrevd] at hc'
          by_cases hz : (h.adjacent_mines == 0 && !h.is_mine) = true
          · rw [if_pos hz] at hc'
            simp only at hc'
            rcases markRevealed_get? g q r i c hc with hmc | ⟨⟨hcq, hcr⟩, hmc⟩
            · rcases ih.2 hexDirections (markRevealed g q r) q r i c c' hmc hc'
                hrev with h1 | ⟨d', hd', hs', hz'⟩
              · exact Or.inl h1
              · right
                have hle := markRevealed_gridLe g q r
                have hzqr : isZeroCell g q r := by
                  simp only [Bool.and_eq_true, beq_iff_eq, Bool.not_eq_true'] at hz
                  exact ⟨h, hf, hz.2, hz.1⟩
                exact ZComp_prepend hzqr ⟨d', hd', rfl, rfl⟩
                  ((findHex_isSome_iff hle _ _).mpr hs')
                  (ZComp_of_gridLe_rev hle hz')
            · right
              rw [hcq, hcr]
              exact ZComp.refl
          · rw [if_neg hz] at hc'
            simp only at hc'
            rcases markRevealed_get? g q r i c hc with hmc | ⟨⟨hcq, hcr⟩, hmc⟩
            · rw [hmc] at hc'
              cases hc'
              exact Or.inl hrev
            · right
              rw [hcq, hcr]
              exact ZComp.refl
    refine ⟨hex, ?_⟩
    intro ds
    induction ds with
    | nil =>
      intro g q r i c c' hc hc' hrev
      rw [revealDirs] at hc'
      rw [hc] at hc'
      cases hc'
      exact Or.inl hrev
    | cons d ds ihd =>
      intro g q r i c c' hc hc' hrev
      rw [revealDirs] at hc'
      cases hfd : findHex g (q + d.1) (r + d.2) with
      | none =>
        simp only [hfd] at hc'
        rcases ihd g q r i c c' hc hc' hrev with h1 | ⟨d', hd', hs', hz'⟩
        · exact Or.inl h1
        · exact Or.inr ⟨d', List.mem_cons_of_mem d hd', hs', hz'⟩
      | some h0 =>
        simp only [hfd] at hc'
        obtain ⟨c1, hc1, hcc1⟩ :=
          gridLe_get? (revealHex_gridLe s (fuel + 1) g (q + d.1) (r + d.2)) i c hc
        rcases ihd (revealHex s (fuel + 1) g (q + d.1) (r + d.2)).1 q r i c1 c'
          hc1 hc' hrev with h1 | ⟨d', hd', hs', hz'⟩
        · rcases hex g (q + d.1) (r + d.2) i c c1 hc hc1 h1 with h2 | h2
          · exact Or.inl h2
          · exact Or.inr ⟨d, List.mem_cons_self d ds, by rw [hfd]; rfl, h2⟩
        · have hle := revealHex_gridLe s (fuel + 1) g (q + d.1) (r + d.2)
          right
          refine ⟨d', List.mem_cons_of_mem d hd',
            (findHex_isSome_iff hle _ _).mpr hs', ?_⟩
          rw [hcc1.1, hcc1.2.1]
          exact ZComp_of_gridLe_rev hle hz'

/-! ### Closure: a newly revealed zero cell drags all its in-board
neighbors along -/

theorem revealHex_closed_all (s : Sounds) : ∀ fuel : Nat,
    (∀ g q r, unrevealedCount g ≤ fuel → ∀ x y, isZeroCell g x y →
      ¬Rev g x y → Rev (revealHex s fuel g q r).1 x y →
      ∀ d ∈ hexDirections, (findHex g (x + d.1) (y + d.2)).isSome = true →
        Rev (revealHex s fuel g q r).1 (x + d.1) (y + d.2)) ∧
    (∀ ds g q r, unrevealedCount g ≤ fuel →
      (∀ x y, isZeroCell g x y → ¬Rev g x y →
        Rev (revealDirs s fuel ds g q r).1 x y →
        ∀ d ∈ hexDirections, (findHex g (x + d.1) (y + d.2)).isSome = true →
          Rev (revealDirs s fuel ds g q r).1 (x + d.1) (y + d.2)) ∧
      (∀ d ∈ ds, (findHex g (q + d.1) (r + d.2)).isSome = true →
        Rev (revealDirs s fuel ds g q r).1 (q + d.1) (r + d.2))) := by
  intro fuel
  induction fuel with
  | zero =>
    constructor
    · intro g q r _ x y _ hnr hr
      rw [revealHex] at hr
      exact absurd hr hnr
    · intro ds g q r hu
      have hall := (revealHex_all_revealed s 0).2 ds g q r (by omega)
      rw [hall]
      constructor
      · intro x y _ hnr hr
        exact absurd hr hnr
      · intro d _ hsd
        obtain ⟨h1, hf1⟩ := Option.isSome_iff_exists.mp hsd
        exact ⟨h1, hf1, revealed_of_unrevealedCount_zero (by omega) hf1⟩
  | succ fuel ih =>
    have hexCl : ∀ g q r, unrevealedCount g ≤ fuel + 1 → ∀ x y,
        isZeroCell g x y → ¬Rev g x y →
        Rev (revealHex s (fuel + 1) g q r).1 x y →
        ∀ d ∈ hexDirections, (findHex g (x + d.1) (y + d.2)).isSome = true →
          Rev (revealHex s (fuel + 1) g q r).1 (x + d.1) (y + d.2) := by
      intro g q r hu x y hz hnr hr d hd hsd
      rw [revealHex_succ] at hr ⊢
      cases hf : findHex g q r with
      | none =>
        simp only [hf] at hr ⊢
        exact absurd hr hnr
      | some h =>
        simp only [hf] at hr ⊢
        by_cases hrevd : h.revealed = true
        · rw [if_pos hrevd] at hr ⊢
          exact absurd hr hnr
        · rw [if_neg hrevd] at hr ⊢
          by_cases hzb : (h.adjacent_mines == 0 && !h.is_mine) = true
          · rw [if_pos hzb] at hr ⊢
            simp only at hr ⊢
            have hle' := markRevealed_gridLe g q r
            have hu' : unrevealedCount (markRevealed g q r) ≤ fuel := by
              have := unrevealedCount_markRevealed hf (by simpa using hrevd)
              omega
            have hdirs := ih.2 hexDirections (markRevealed g q r) q r hu'
            by_cases hxy : x = q ∧ y = r
            · obtain ⟨rfl, rfl⟩ := hxy
              exact hdirs.2 d hd ((findHex_isSome_iff hle' _ _).mp hsd)
            · have hrev' : Rev (markRevealed g q r) x y ↔ Rev g x y := by
                unfold Rev
                rw [findHex_markRevealed_ne hxy]
              exact hdirs.1 x y ((isZeroCell_iff hle' _ _).mp hz)
                (fun hc => hnr (hrev'.mp hc)) hr d hd
                ((findHex_isSome_iff hle' _ _).mp hsd)
          · rw [if_neg hzb] at hr ⊢
            simp only at hr ⊢
            by_cases hxy : x = q ∧ y = r
            · exfalso
              obtain ⟨rfl, rfl⟩ := hxy
              obtain ⟨hh, hfind, hm, ha⟩ := hz
              rw [hf] at hfind
              cases hfind
              simp [ha, hm] at hzb
            · exfalso
              have hrev' : Rev (markRevealed g q r) x y ↔ Rev g x y := by
                unfold Rev
                rw [findHex_markRevealed_ne hxy]
              exact hnr (hrev'.mp hr)
    refine ⟨hexCl, ?_⟩
    intro ds
    induction ds with
    | nil =>
      intro g q r _
      rw [revealDirs]
      constructor
      · intro x y _ hnr hr
        exact absurd hr hnr
      · intro d hd
        simp at hd
    | cons d0 ds ihd =>
      intro g q r hu
      rw [revealDirs]
      cases hfd : findHex g (q + d0.1) (r + d0.2) with
      | none =>
        simp only [hfd]
        have ihds := ihd g q r hu
        refine ⟨ihds.1, ?_⟩
        intro d hd hsd
        rcases List.mem_cons.mp hd with rfl | htl
        · rw [hfd] at hsd
          cases hsd
        · exact ihds.2 d htl hsd
      | some h0 =>
        simp only [hfd]
        have hleres := revealHex_gridLe s (fuel + 1) g (q + d0.1) (r + d0.2)
        have hures : unrevealedCount
            (revealHex s (fuel + 1) g (q + d0.1) (r + d0.2)).1 ≤ fuel + 1 :=
          le_trans (unrevealedCount_le_of_gridLe hleres) hu
        have ihds :=
          ihd (revealHex s (fuel + 1) g (q + d0.1) (r + d0.2)).1 q r hures
        have hledout := revealDirs_gridLe s (fuel + 1) ds
          (revealHex s (fuel + 1) g (q + d0.1) (r + d0.2)).1 q r
        constructor
        · intro x y hz hnr hr d hd hsd
          by_cases hR : Rev (revealHex s (fuel + 1) g (q + d0.1) (r + d0.2)).1 x y
          · exact Rev_mono hledout
              (hexCl g (q + d0.1) (r + d0.2) hu x y hz hnr hR d hd hsd)
          · exact ihds.1 x y ((isZeroCell_iff hleres _ _).mp hz) hR hr d hd
              ((findHex_isSome_iff hleres _ _).mp hsd)
        · intro d hd hsd
          rcases List.mem_cons.mp hd with rfl | htl
          · exact Rev_mono hledout (revealHex_target s hu hfd)
          · exact ihds.2 d htl ((findHex_isSome_iff hleres _ _).mp hsd)

/-! ### Completeness on a fresh board -/

theorem revealHex_complete (s : Sounds) {fuel : Nat} {g : List Hex}
    {cq cr : Int} {hc : Hex} (hfuel : unrevealedCount g ≤ fuel)
    (hfresh : ∀ h ∈ g, h.revealed = false)
    (hfind : findHex g cq cr = some hc) :
    ∀ x y, ZComp g cq cr x y → Rev (revealHex s fuel g cq cr).1 x y := by
  intro x y hpath
  induction hpath with
  | refl => exact revealHex_target s hfuel hfind
  | step hp hza hn hs ih =>
    obtain ⟨d, hd, rfl, rfl⟩ := hn
    rename_i a b
    have hnra : ¬Rev g a b := by
      rintro ⟨ha, hfa, hra⟩
      unfold findHex at hfa
      rw [hfresh ha (List.mem_of_find?_eq_some hfa)] at hra
      cases hra
    exact (revealHex_closed_all s fuel).1 g cq cr hfuel a b hza hnra ih d hd hs

theorem coords_eq_of_gridLe {g : List Hex} : ∀ {g' : List Hex}, gridLe g g' →
    g.map (fun h => (h.q, h.r)) = g'.map (fun h => (h.q, h.r)) := by
  induction g with
  | nil =>
    intro g' hle
    cases hle
    rfl
  | cons a t ih =>
    intro g' hle
    cases hle with
    | cons hab hrest =>
      simp only [List.map_cons]
      rw [hab.1, hab.2.1, ih hrest]

theorem coordsNodup_of_gridLe {g g' : List Hex} (hle : gridLe g g')
    (hnd : coordsNodup g) : coordsNodup g' := by
  unfold coordsNodup at hnd ⊢
  rw [← coords_eq_of_gridLe hle]
  exact hnd

theorem findHex_get?_of_nodup {g : List Hex} (hnd : coordsNodup g) :
    ∀ {i : Nat} {c : Hex}, g.get? i = some c → findHex g c.q c.r = some c := by
  induction g with
  | nil => intro i c hc; simp at hc
  | cons a t ih =>
    intro i c hc
    unfold coordsNodup at hnd
    simp only [List.map_cons, List.nodup_cons] at hnd
    cases i with
    | zero =>
      simp only [List.get?_cons_zero, Option.some.injEq] at hc
      cases hc
      rw [findHex_cons, if_pos (by simp)]
    | succ i =>
      simp only [List.get?_cons_succ] at hc
      have hmem : c ∈ t := List.get?_mem hc
      have hne : ¬(a.q == c.q && a.r == c.r) = true := by
        simp only [Bool.and_eq_true, beq_iff_eq]
        rintro ⟨h1, h2⟩
        exact hnd.1 (by
          rw [List.mem_map]
          exact ⟨c, hmem, by rw [h1, h2]⟩)
      rw [findHex_cons, if_neg hne]
      exact ih hnd.2 hc

theorem findHex_of_mem_nodup {g : List Hex} (hnd : coordsNodup g) {n : Hex}
    (hm : n ∈ g) : findHex g n.q n.r = some n := by
  obtain ⟨i, hi⟩ := List.mem_iff_get?.mp hm
  exact findHex_get?_of_nodup hnd hi

/-! ### `calculate_adjacent_mines` lemmas -/

theorem mineNeighborCount_eq_of_nodup {g : List Hex} (hnd : coordsNodup g)
    (q r : Int) :
    mineNeighborCount g q r =
      hexDirections.countP (fun d =>
        decide (∃ n ∈ g, n.q = q + d.1 ∧ n.r = r + d.2 ∧ n.is_mine = true)) := by
  unfold mineNeighborCount
  apply List.countP_congr
  intro d _
  cases hfd : findHex g (q + d.1) (r + d.2) with
  | none =>
    simp only [hfd, decide_eq_true_eq]
    constructor
    · intro habs; cases habs
    · rintro ⟨n, hm, h1, h2, h3⟩
      have hfn := findHex_of_mem_nodup hnd hm
      rw [h1, h2, hfd] at hfn
      cases hfn
  | some n0 =>
    simp only [hfd, decide_eq_true_eq]
    constructor
    · intro hm0
      unfold findHex at hfd
      have hmem := List.mem_of_find?_eq_some hfd
      have hp := List.find?_some hfd
      simp only [Bool.and_eq_true, beq_iff_eq] at hp
      exact ⟨n0, hmem, hp.1, hp.2, hm0⟩
    · rintro ⟨n, hm, h1, h2, h3⟩
      have hfn := findHex_of_mem_nodup hnd hm
      rw [h1, h2, hfd] at hfn
      cases hfn
      exact h3

theorem calculate_adjacent_mines_get? (g : List Hex) (i : Nat) {c : Hex}
    (hc : g.get? i = some c) :
    (calculate_adjacent_mines g).get? i =
      some (if c.is_mine then c
        else { c with adjacent_mines := mineNeighborCount g c.q c.r }) := by
  unfold calculate_adjacent_mines
  rw [List.get?_eq_getElem?, List.getElem?_map, ← List.get?_eq_getElem?, hc]
  rfl

/-! ### `place_mines` lemmas -/

/-- `b` is `a` after possibly turning it into a mine: all fields agree
except that `is_mine` may have moved from `false` to `true`. -/
def mineLe (a b : Hex) : Prop :=
  a.q = b.q ∧ a.r = b.r ∧ a.color = b.color ∧ a.revealed = b.revealed ∧
    a.adjacent_mines = b.adjacent_mines ∧ (a.is_mine = true → b.is_mine = true)

def gridMineLe : List Hex → List Hex → Prop :=
  List.Forall₂ mineLe

theorem gridMineLe_refl (g : List Hex) : gridMineLe g g := by
  induction g with
  | nil => exact List.Forall₂.nil
  | cons a t ih => exact List.Forall₂.cons ⟨rfl, rfl, rfl, rfl, rfl, id⟩ ih

theorem gridMineLe_trans {a b c : List Hex} (h1 : gridMineLe a b)
    (h2 : gridMineLe b c) : gridMineLe a c := by
  induction h1 generalizing c with
  | nil => cases h2; exact List.Forall₂.nil
  | cons hab _ ih =>
    cases h2 with
    | cons hbc h2 =>
      refine List.Forall₂.cons ?_ (ih h2)
      obtain ⟨e1, e2, e3, e4, e5, e6⟩ := hab
      obtain ⟨f1, f2, f3, f4, f5, f6⟩ := hbc
      exact ⟨e1.trans f1, e2.trans f2, e3.trans f3, e4.trans f4, e5.trans f5,
        fun hm => f6 (e6 hm)⟩

theorem setMineAt_length (g : List Hex) (i : Nat) :
    (setMineAt g i).length = g.length := by
  unfold setMineAt
  simp

theorem setMineAt_gridMineLe (g : List Hex) (i : Nat) :
    gridMineLe g (setMineAt g i) := by
  unfold setMineAt
  induction g generalizing i with
  | nil =>
    rw [List.modify_nil]
    exact List.Forall₂.nil
  | cons a t ih =>
    cases i with
    | zero =>
      exact List.Forall₂.cons ⟨rfl, rfl, rfl, rfl, rfl, fun _ => rfl⟩
        (gridMineLe_refl t)
    | succ i =>
      exact List.Forall₂.cons ⟨rfl, rfl, rfl, rfl, rfl, id⟩ (ih i)

theorem mineCount_setMineAt {h : Hex} (hm : h.is_mine = false) :
    ∀ {g : List Hex} {i : Nat}, g.get? i = some h →
    mineCount (setMineAt g i) = mineCount g + 1 := by
  intro g
  unfold setMineAt
  induction g with
  | nil => intro i hi; simp at hi
  | cons a t ih =>
    intro i hi
    cases i with
    | zero =>
      simp only [List.get?_cons_zero, Option.some.injEq] at hi
      cases hi
      show mineCount ({ h with is_mine := true } :: t) = mineCount (h :: t) + 1
      unfold mineCount
      simp only [List.countP_cons, hm]
      simp
    | succ i =>
      simp only [List.get?_cons_succ] at hi
      show mineCount (a :: List.modify _ i t) = mineCount (a :: t) + 1
      unfold mineCount
      simp only [List.countP_cons]
      have := ih hi
      unfold mineCount at this
      omega

theorem place_mines_loop_spec : ∀ (rand : List Nat) (g : List Hex)
    (placed target : Nat), placed ≤ target → ∀ {g' : List Hex},
    place_mines_loop rand g placed target = some g' →
    mineCount g' + placed = mineCount g + target ∧ gridMineLe g g' := by
  intro rand
  induction rand with
  | nil =>
    intro g placed target hpt g' hloop
    rw [place_mines_loop] at hloop
    split at hloop
    · cases hloop
      constructor
      · omega
      · exact gridMineLe_refl g
    · cases hloop
  | cons i rest ih =>
    intro g placed target hpt g' hloop
    rw [place_mines_loop] at hloop
    split at hloop
    · cases hloop
      constructor
      · omega
      · exact gridMineLe_refl g
    · rename_i hnle
      cases hget : g.get? (i % g.length) with
      | none =>
        rw [hget] at hloop
        replace hloop : (none : Option (List Hex)) = some g' := hloop
        cases hloop
      | some h =>
        rw [hget] at hloop
        replace hloop : (if h.is_mine = true then place_mines_loop rest g placed target
          else place_mines_loop rest (setMineAt g (i % g.length)) (placed + 1) target)
            = some g' := hloop
        by_cases hm : h.is_mine = true
        · rw [if_pos hm] at hloop
          exact ih g placed target hpt hloop
        · rw [if_neg hm] at hloop
          have hstep := ih (setMineAt g (i % g.length)) (placed + 1) target
            (by omega) hloop
          have hcnt := mineCount_setMineAt (by simpa using hm) hget
          refine ⟨by omega, ?_⟩
          exact gridMineLe_trans (setMineAt_gridMineLe g (i % g.length)) hstep.2

theorem mineCount_le_length (g : List Hex) : mineCount g ≤ g.length :=
  List.countP_le_length _

theorem place_mines_loop_none : ∀ (rand : List Nat) (g : List Hex)
    (placed target : Nat), g.length + placed < target + mineCount g →
    place_mines_loop rand g placed target = none := by
  intro rand
  induction rand with
  | nil =>
    intro g placed target hlt
    have hml := mineCount_le_length g
    rw [place_mines_loop, if_neg (by omega : ¬target ≤ placed)]
  | cons i rest ih =>
    intro g placed target hlt
    have hml := mineCount_le_length g
    rw [place_mines_loop, if_neg (by omega : ¬target ≤ placed)]
    cases hget : g.get? (i % g.length) with
    | none => rfl
    | some h =>
      show (if h.is_mine = true then place_mines_loop rest g placed target
        else place_mines_loop rest (setMineAt g (i % g.length)) (placed + 1) target)
          = none
      by_cases hm : h.is_mine = true
      · rw [if_pos hm]
        exact ih g placed target hlt
      · rw [if_neg hm]
        apply ih
        rw [setMineAt_length, mineCount_setMineAt (by simpa using hm) hget]
        omega

/-! ### Revealing an already-revealed (or missing) cell is a no-op -/

theorem revealHex_of_revealed (s : Sounds) (fuel : Nat) {g : List Hex}
    {q r : Int} {h : Hex} (hf : findHex g q r = some h)
    (hrev : h.revealed = true) : revealHex s fuel g q r = (g, []) := by
  cases fuel with
  | zero => rw [revealHex]
  | succ fuel =>
    rw [revealHex_succ]
    simp only [hf]
    rw [if_pos hrev]

theorem revealHex_of_find_none (s : Sounds) (fuel : Nat) {g : List Hex}
    {q r : Int} (hf : findHex g q r = none) :
    revealHex s fuel g q r = (g, []) := by
  cases fuel with
  | zero => rw [revealHex]
  | succ fuel =>
    rw [revealHex_succ]
    simp only [hf]

/-! ### Each cell fires its reveal event at most once -/

/-- A well-formed reveal event of a call from grid `g` to grid `out`:
the cell was unrevealed before and is revealed after.  The flood fill
never emits a game-over event. -/
def evOk (g out : List Hex) : SndEvent → Prop
  | SndEvent.revealSnd a b => ¬Rev g a b ∧ Rev out a b
  | SndEvent.gameOverSnd => False

theorem evOk_mono {g out out' : List Hex} (hle : gridLe out out') {e : SndEvent}
    (h : evOk g out e) : evOk g out' e := by
  cases e with
  | revealSnd a b => exact ⟨h.1, Rev_mono hle h.2⟩
  | gameOverSnd => exact h.elim

theorem evOk_anti {g g' out : List Hex} (hle : gridLe g g') {e : SndEvent}
    (h : evOk g' out e) : evOk g out e := by
  cases e with
  | revealSnd a b => exact ⟨fun hr => h.1 (Rev_mono hle hr), h.2⟩
  | gameOverSnd => exact h.elim

theorem revealHex_events_all (s : Sounds) : ∀ fuel : Nat,
    (∀ g q r, (revealHex s fuel g q r).2.Nodup ∧
      ∀ e ∈ (revealHex s fuel g q r).2, evOk g (revealHex s fuel g q r).1 e) ∧
    (∀ ds g q r, (revealDirs s fuel ds g q r).2.Nodup ∧
      ∀ e ∈ (revealDirs s fuel ds g q r).2,
        evOk g (revealDirs s fuel ds g q r).1 e) := by
  intro fuel
  induction fuel with
  | zero =>
    constructor
    · intro g q r
      rw [revealHex]
      exact ⟨List.nodup_nil, by simp⟩
    · intro ds
      induction ds with
      | nil =>
        intro g q r
        rw [revealDirs]
        exact ⟨List.nodup_nil, by simp⟩
      | cons d ds ihd =>
        intro g q r
        rw [revealDirs]
        cases hfd : findHex g (q + d.1) (r + d.2) with
        | none =>
          simp only [hfd]
          exact ihd g q r
        | some h0 =>
          simp only [hfd, revealHex]
          simpa using ihd g q r
  | succ fuel ih =>
    have hexEv : ∀ g q r, (revealHex s (fuel + 1) g q r).2.Nodup ∧
        ∀ e ∈ (revealHex s (fuel + 1) g q r).2,
          evOk g (revealHex s (fuel + 1) g q r).1 e := by
      intro g q r
      rw [revealHex_succ]
      cases hf : findHex g q r with
      | none =>
        simp only [hf]
        exact ⟨List.nodup_nil, by simp⟩
      | some h =>
        simp only [hf]
        by_cases hrevd : h.revealed = true
        · rw [if_pos hrevd]
          exact ⟨List.nodup_nil, by simp⟩
        · rw [if_neg hrevd]
          have hnrev : ¬Rev g q r := by
            rintro ⟨h2, hf2, hr2⟩
            rw [hf] at hf2
            cases hf2
            exact hrevd hr2
          have hmark : Rev (markRevealed g q r) q r :=
            ⟨_, findHex_markRevealed_self hf, rfl⟩
          by_cases hz : (h.adjacent_mines == 0 && !h.is_mine) = true
          · rw [if_pos hz]
            simp only
            have hdirs := ih.2 hexDirections (markRevealed g q r) q r
            have hledirs := revealDirs_gridLe s fuel hexDirections
              (markRevealed g q r) q r
            have htailok : ∀ e ∈ (revealDirs s fuel hexDirections
                (markRevealed g q r) q r).2,
                evOk g (revealDirs s fuel hexDirections
                  (markRevealed g q r) q r).1 e :=
              fun e he => evOk_anti (markRevealed_gridLe g q r) (hdirs.2 e he)
            cases hsnd : s.reveal with
            | false =>
              simp only [hsnd, if_neg Bool.false_ne_true, List.nil_append]
              exact ⟨hdirs.1, htailok⟩
            | true =>
              simp only [hsnd, eq_self_iff_true, if_true, List.cons_append, List.nil_append]
              constructor
              · rw [List.nodup_cons]
                refine ⟨?_, hdirs.1⟩
                intro hmem
                exact (hdirs.2 _ hmem).1 hmark
              · intro e he
                rcases List.mem_cons.mp he with rfl | htl
                · exact ⟨hnrev, Rev_mono hledirs hmark⟩
                · exact htailok e htl
          · rw [if_neg hz]
            simp only
            cases hsnd : s.reveal with
            | false =>
              simp only [hsnd, if_neg Bool.false_ne_true]
              exact ⟨List.nodup_nil, by simp⟩
            | true =>
              simp only [hsnd, eq_self_iff_true, if_true]
              refine ⟨List.nodup_singleton _, ?_⟩
              intro e he
              rcases List.mem_cons.mp he with rfl | htl
              · exact ⟨hnrev, hmark⟩
              · simp at htl
    refine ⟨hexEv, ?_⟩
    intro ds
    induction ds with
    | nil =>
      intro g q r
      rw [revealDirs]
      exact ⟨List.nodup_nil, by simp⟩
    | cons d ds ihd =>
      intro g q r
      rw [revealDirs]
      cases hfd : findHex g (q + d.1) (r + d.2) with
      | none =>
        simp only [hfd]
        exact ihd g q r
      | some h0 =>
        simp only [hfd]
        have hres := hexEv g (q + d.1) (r + d.2)
        have hres2 := ihd (revealHex s (fuel + 1) g (q + d.1) (r + d.2)).1 q r
        have hlehex := revealHex_gridLe s (fuel + 1) g (q + d.1) (r + d.2)
        have hledirs := revealDirs_gridLe s (fuel + 1) ds
          (revealHex s (fuel + 1) g (q + d.1) (r + d.2)).1 q r
        constructor
        · refine List.Nodup.append hres.1 hres2.1 ?_
          intro e he1 he2
          have h1 := hres.2 e he1
          have h2 := hres2.2 e he2
          cases e with
          | revealSnd a b => exact h2.1 h1.2
          | gameOverSnd => exact h1
        · intro e he
          rcases List.mem_append.mp he with h1 | h2
          · exact evOk_mono hledirs (hres.2 e h1)
          · exact evOk_anti hlehex (hres2.2 e h2)

/-! ### The hit test agrees with the real-number formula of the source -/

theorem sqrt3LtZero_iff (a b : Int) :
    sqrt3LtZero a b = true ↔ (a : ℝ) + (b : ℝ) * Real.sqrt 3 < 0 := by
  have hs : Real.sqrt 3 ^ 2 = 3 := Real.sq_sqrt (by norm_num)
  have hsnn : (0 : ℝ) ≤ Real.sqrt 3 := Real.sqrt_nonneg 3
  have hspos : (0 : ℝ) < Real.sqrt 3 := Real.sqrt_pos.mpr (by norm_num)
  unfold sqrt3LtZero
  by_cases hb : 0 ≤ b
  · rw [if_pos hb]
    simp only [Bool.and_eq_true, decide_eq_true_eq]
    have hb' : (0 : ℝ) ≤ (b : ℝ) := by exact_mod_cast hb
    constructor
    · rintro ⟨ha, hsq⟩
      have ha' : (a : ℝ) < 0 := by exact_mod_cast ha
      have hsq' : 3 * (b : ℝ) * (b : ℝ) < (a : ℝ) * (a : ℝ) := by exact_mod_cast hsq
      nlinarith [mul_nonneg hb' hsnn]
    · intro hlt
      have hbs : (0 : ℝ) ≤ (b : ℝ) * Real.sqrt 3 := mul_nonneg hb' hsnn
      have ha' : (a : ℝ) < 0 := by nlinarith
      refine ⟨by exact_mod_cast ha', ?_⟩
      have hsq' : 3 * (b : ℝ) * (b : ℝ) < (a : ℝ) * (a : ℝ) := by nlinarith
      exact_mod_cast hsq'
  · rw [if_neg hb]
    simp only [Bool.or_eq_true, decide_eq_true_eq]
    have hb' : (b : ℝ) < 0 := by exact_mod_cast (by omega : b < 0)
    have hbs : (b : ℝ) * Real.sqrt 3 < 0 := mul_neg_of_neg_of_pos hb' hspos
    constructor
    · rintro (ha | hsq)
      · have ha' : (a : ℝ) ≤ 0 := by exact_mod_cast ha
        nlinarith
      · have hsq' : (a : ℝ) * (a : ℝ) < 3 * (b : ℝ) * (b : ℝ) := by exact_mod_cast hsq
        nlinarith
    · intro hlt
      by_cases ha : a ≤ 0
      · exact Or.inl ha
      · right
        have ha' : (0 : ℝ) < (a : ℝ) := by exact_mod_cast (by omega : 0 < a)
        have hsq' : (a : ℝ) * (a : ℝ) < 3 * (b : ℝ) * (b : ℝ) := by nlinarith
        exact_mod_cast hsq'

theorem hexHit_iff_real (mx my ox oy : Int) (h : Hex) :
    hexHit mx my ox oy h = true ↔
      ((mx : ℝ) - (40 * 1.5 * (h.q : ℝ) + (ox : ℝ))) ^ 2 +
        ((my : ℝ) - (40 * Real.sqrt 3 * ((h.r : ℝ) + (h.q : ℝ) / 2) + (oy : ℝ))) ^ 2
        < 40 ^ 2 := by
  unfold hexHit
  rw [sqrt3LtZero_iff]
  have hs : Real.sqrt 3 ^ 2 = 3 := Real.sq_sqrt (by norm_num)
  have key : ((mx : ℝ) - (40 * 1.5 * (h.q : ℝ) + (ox : ℝ))) ^ 2 +
      ((my : ℝ) - (40 * Real.sqrt 3 * ((h.r : ℝ) + (h.q : ℝ) / 2) + (oy : ℝ))) ^ 2 =
      ((mx : ℝ) - (60 * (h.q : ℝ) + (ox : ℝ))) *
          ((mx : ℝ) - (60 * (h.q : ℝ) + (ox : ℝ))) +
        ((my : ℝ) - (oy : ℝ)) * ((my : ℝ) - (oy : ℝ)) +
        3 * (40 * (h.r : ℝ) + 20 * (h.q : ℝ)) *
          (40 * (h.r : ℝ) + 20 * (h.q : ℝ)) +
        -(2 * ((my : ℝ) - (oy : ℝ)) * (40 * (h.r : ℝ) + 20 * (h.q : ℝ))) *
          Real.sqrt 3 := by
    linear_combination (40 * (h.r : ℝ) + 20 * (h.q : ℝ)) ^ 2 * hs
  push_cast
  constructor <;> intro hlt <;> linarith [key]

/-! ### Click-step lemmas -/

theorem find?_cons_eq {α : Type} (p : α → Bool) (a : α) (l : List α) :
    (a :: l).find? p = if p a then some a else l.find? p := by
  rw [List.find?_cons]
  cases p a <;> rfl

theorem find?_append_of_none {α : Type} {p : α → Bool} {l₁ l₂ : List α}
    (h : ∀ x ∈ l₁, p x = false) : (l₁ ++ l₂).find? p = l₂.find? p := by
  induction l₁ with
  | nil => rfl
  | cons a t ih =>
    simp only [List.cons_append]
    rw [find?_cons_eq, h a (List.mem_cons_self a t)]
    simp only [Bool.false_eq_true, if_false]
    exact ih (fun x hx => h x (List.mem_cons_of_mem a hx))

theorem clickStep_of_find?_none (s : Sounds) (fuel : Nat) (mx my ox oy : Int)
    {g : List Hex} (hnone : g.find? (hexHit mx my ox oy) = none) :
    clickStep s fuel mx my ox oy g = ⟨g, [], true, false⟩ := by
  unfold clickStep
  rw [hnone]

theorem clickStep_of_find?_mine (s : Sounds) (fuel : Nat) (mx my ox oy : Int)
    {g : List Hex} {c : Hex} (hfound : g.find? (hexHit mx my ox oy) = some c)
    (hmine : c.is_mine = true) :
    clickStep s fuel mx my ox oy g =
      ⟨g, if s.game_over then [SndEvent.gameOverSnd] else [], false, true⟩ := by
  unfold clickStep
  simp only [hfound]
  rw [if_pos hmine]

theorem clickStep_of_find?_safe (s : Sounds) (fuel : Nat) (mx my ox oy : Int)
    {g : List Hex} {c : Hex} (hfound : g.find? (hexHit mx my ox oy) = some c)
    (hmine : c.is_mine = false) :
    clickStep s fuel mx my ox oy g =
      ⟨(revealHex s fuel g c.q c.r).1, (revealHex s fuel g c.q c.r).2,
        true, false⟩ := by
  unfold clickStep
  simp only [hfound]
  rw [if_neg (by rw [hmine]; exact Bool.false_ne_true)]

/-! ## The claims -/

/-- C1, counterexample to the claim as stated: on a one-cell board whose
only cell is a mine, a left click at the cell's center takes the
game-over path and stops the loop, but no cell's `revealed` flag is set
to `true` — `main` calls `game_over` without calling `reveal_hex`, so
the clicked mine is never marked revealed. -/
theorem claim_C1_counterexample :
    hexHit 0 0 0 0 { q := 0, r := 0, is_mine := true } = true ∧
    (clickStep ⟨true, true, true⟩ 5 0 0 0 0
      [{ q := 0, r := 0, is_mine := true }]).lost = true ∧
    (clickStep ⟨true, true, true⟩ 5 0 0 0 0
      [{ q := 0, r := 0, is_mine := true }]).running = false ∧
    (clickStep ⟨true, true, true⟩ 5 0 0 0 0
      [{ q := 0, r := 0, is_mine := true }]).grid.all
        (fun h => !h.revealed) = true := by
  decide

/-- C1, amended: when the left click's first hit cell is a mine, the
click step leaves the session in the Lost state (the `game_over` path is
taken and `running` becomes false) but the board is left completely
unchanged — in particular the mine cell's `revealed` flag is not set. -/
theorem claim_C1_click_mine_lost_board_unchanged (s : Sounds) (fuel : Nat)
    (mx my ox oy : Int) {g : List Hex} {c : Hex}
    (hfound : g.find? (hexHit mx my ox oy) = some c)
    (hmine : c.is_mine = true) :
    (clickStep s fuel mx my ox oy g).lost = true ∧
    (clickStep s fuel mx my ox oy g).running = false ∧
    (clickStep s fuel mx my ox oy g).grid = g := by
  rw [clickStep_of_find?_mine s fuel mx my ox oy hfound hmine]
  exact ⟨rfl, rfl, rfl⟩

theorem claim_C1_witness :
    ([{ q := 0, r := 0, is_mine := true }].find? (hexHit 0 0 0 0) =
      some { q := 0, r := 0, is_mine := true }) ∧
    ({ q := 0, r := 0, is_mine := true } : Hex).is_mine = true ∧
    ((clickStep ⟨true, true, true⟩ 5 0 0 0 0
        [{ q := 0, r := 0, is_mine := true }]).lost = true ∧
      (clickStep ⟨true, true, true⟩ 5 0 0 0 0
        [{ q := 0, r := 0, is_mine := true }]).running = false ∧
      (clickStep ⟨true, true, true⟩ 5 0 0 0 0
        [{ q := 0, r := 0, is_mine := true }]).grid =
        [{ q := 0, r := 0, is_mine := true }]) :=
  ⟨by decide, by decide,
    @claim_C1_click_mine_lost_board_unchanged ⟨true, true, true⟩ 5 0 0 0 0
      [{ q := 0, r := 0, is_mine := true }] { q := 0, r := 0, is_mine := true }
      (by decide) (by decide)⟩

/-- C2: the source's `place_mines` has no guard at all: with
`count > cell count` the `while` loop can never finish (every iteration
either marks a new mine, at most `length` times, or retries), and no
configuration error is ever raised.  For every finite stream of random
picks the loop is still running (`none`), i.e. it loops forever instead
of failing fast as the spec requires. -/
theorem claim_C2_place_mines_no_error {g : List Hex} {C : Nat}
    (hC : g.length < C) : ∀ rand : List Nat, place_mines g C rand = none := by
  intro rand
  unfold place_mines
  apply place_mines_loop_none
  omega

theorem claim_C2_witness :
    (create_hex_grid 0).length < 2 ∧
    place_mines (create_hex_grid 0) 2 [0, 1, 0, 1, 0, 1, 0, 1] = none :=
  ⟨by decide, claim_C2_place_mines_no_error (by decide) [0, 1, 0, 1, 0, 1, 0, 1]⟩

/-- The three-cell line board of the C3 counterexample — middle cell
already revealed — after running adjacency computation (no mines, so
every `adjacent_mines` is 0 and `revealed` flags are preserved). -/
def C3Board : List Hex :=
  calculate_adjacent_mines
    [{ q := 0, r := 0 }, { q := 1, r := 0, revealed := true }, { q := 2, r := 0 }]

/-- C3, counterexample to the claim as stated: on an adjacency-computed
board whose middle cell `(1,0)` is already revealed, the cells `(0,0)`,
`(1,0)`, `(2,0)` form one connected zero-adjacency non-mine region, and
`(0,0)` is unrevealed, non-mine, with `adjacent_mines = 0`; yet
revealing `(0,0)` does not mark `(2,0)` revealed — the pre-revealed
middle cell stops the flood, so the reveal does not mark "exactly" the
component. -/
theorem claim_C3_counterexample :
    findHex C3Board 0 0 = some { q := 0, r := 0 } ∧
    zeroComp C3Board 0 0 2 0 ∧
    (revealHex ⟨true, true, true⟩ 10 C3Board 0 0).1.countP
      (fun h => h.q == 2 && h.r == 0 && h.revealed) = 0 := by
  refine ⟨by decide, ?_, by decide⟩
  have h1 : isZeroCell C3Board 1 0 :=
    ⟨{ q := 1, r := 0, revealed := true }, by decide, by decide, by decide⟩
  have h2 : isZeroCell C3Board 2 0 :=
    ⟨{ q := 2, r := 0 }, by decide, by decide, by decide⟩
  have n01 : neighborOf 0 0 1 0 := ⟨(1, 0), by decide, by decide, by decide⟩
  have n12 : neighborOf 1 0 2 0 := ⟨(1, 0), by decide, by decide, by decide⟩
  exact zeroComp.step (zeroComp.step zeroComp.refl n01 h1) n12 h2

/-- C3, amended with the freshness precondition the code needs: on a
board with no revealed cell, revealing an unrevealed non-mine cell `c`
with `adjacent_mines = 0` marks as revealed exactly the connected
component of zero-adjacency non-mine cells containing `c` (via the 6
axial directions, restricted to cells present in the board) together
with the in-board neighbors bordering that component, and no other
cell. -/
theorem claim_C3_reveal_floods_component (s : Sounds) {fuel : Nat}
    {g : List Hex} {cq cr : Int} {hc : Hex}
    (hnd : coordsNodup g)
    (hfresh : g.all (fun h => !h.revealed) = true)
    (hfind : findHex g cq cr = some hc)
    (hmine : hc.is_mine = false) (hadj : hc.adjacent_mines = 0)
    (hfuel : unrevealedCount g ≤ fuel) :
    ∀ i c c', g.get? i = some c →
      (revealHex s fuel g cq cr).1.get? i = some c' →
      (c'.revealed = true ↔
        (zeroComp g cq cr c.q c.r ∨
          ∃ a b, zeroComp g cq cr a b ∧ neighborOf a b c.q c.r)) := by
  have hfresh' : ∀ h ∈ g, h.revealed = false := by
    intro h hm
    have := (List.all_eq_true.mp hfresh) h hm
    simpa using this
  have hzc : isZeroCell g cq cr := ⟨hc, hfind, hmine, hadj⟩
  have hle := revealHex_gridLe s fuel g cq cr
  intro i c c' hci hci'
  have hcoords : c.q = c'.q ∧ c.r = c'.r := by
    obtain ⟨c2, hc2, hcc⟩ := gridLe_get? hle i c hci
    rw [hci'] at hc2
    cases hc2
    exact ⟨hcc.1, hcc.2.1⟩
  constructor
  · intro hrev
    rcases (revealHex_sound_all s fuel).1 g cq cr i c c' hci hci' hrev with h1 | h1
    · rw [hfresh' c (List.get?_mem hci)] at h1
      cases h1
    · rcases (ZComp_iff_zeroComp hzc).mp h1 with h2 | ⟨a, b, h2, hn, _⟩
      · exact Or.inl h2
      · exact Or.inr ⟨a, b, h2, hn⟩
  · intro hset
    have hzcomp : ZComp g cq cr c.q c.r := by
      rcases hset with h2 | ⟨a, b, h2, hn⟩
      · exact zeroComp_to_ZComp hzc h2
      · refine ZComp.step (zeroComp_to_ZComp hzc h2) (zeroComp_isZero hzc h2)
          hn ?_
        rw [findHex_get?_of_nodup hnd hci]
        rfl
    obtain ⟨h', hf', hr'⟩ := revealHex_complete s hfuel hfresh' hfind c.q c.r hzcomp
    have hndout : coordsNodup (revealHex s fuel g cq cr).1 :=
      coordsNodup_of_gridLe hle hnd
    have hfc' : findHex (revealHex s fuel g cq cr).1 c'.q c'.r = some c' :=
      findHex_get?_of_nodup hndout hci'
    rw [← hcoords.1, ← hcoords.2] at hfc'
    rw [hfc'] at hf'
    cases hf'
    exact hr'

theorem claim_C3_witness :
    coordsNodup (create_hex_grid 1) ∧
    (create_hex_grid 1).all (fun h => !h.revealed) = true ∧
    findHex (create_hex_grid 1) 0 0 = some { q := 0, r := 0 } ∧
    ({ q := 0, r := 0 } : Hex).is_mine = false ∧
    ({ q := 0, r := 0 } : Hex).adjacent_mines = 0 ∧
    unrevealedCount (create_hex_grid 1) ≤ 10 ∧
    (∀ i c c', (create_hex_grid 1).get? i = some c →
      (revealHex ⟨true, true, true⟩ 10 (create_hex_grid 1) 0 0).1.get? i = some c' →
      (c'.revealed = true ↔
        (zeroComp (create_hex_grid 1) 0 0 c.q c.r ∨
          ∃ a b, zeroComp (create_hex_grid 1) 0 0 a b ∧ neighborOf a b c.q c.r))) :=
  ⟨by decide, by decide, by decide, by decide, by decide, by decide,
    @claim_C3_reveal_floods_component ⟨true, true, true⟩ 10 (create_hex_grid 1)
      0 0 { q := 0, r := 0 } (by decide) (by decide) (by decide) (by decide)
      (by decide) (by decide)⟩

/-- C4: after `calculate_adjacent_mines` runs, every non-mine cell's
`adjacent_mines` equals the number of the 6 axial directions
`(1,0),(0,1),(-1,1),(-1,0),(0,-1),(1,-1)` that land on a cell present
in the board that is a mine; the value is at most 6 (and at least 0 as
a natural number), and a coordinate absent from the board contributes
nothing to the count. -/
theorem claim_C4_adjacent_mines_spec {g : List Hex} (hnd : coordsNodup g) :
    ∀ i c c', g.get? i = some c →
      (calculate_adjacent_mines g).get? i = some c' → c.is_mine = false →
      c'.adjacent_mines =
        hexDirections.countP (fun d =>
          decide (∃ n ∈ g, n.q = c.q + d.1 ∧ n.r = c.r + d.2 ∧
            n.is_mine = true)) ∧
      c'.adjacent_mines ≤ 6 := by
  intro i c c' hc hc' hm
  rw [calculate_adjacent_mines_get? g i hc] at hc'
  rw [if_neg (by rw [hm]; exact Bool.false_ne_true)] at hc'
  cases hc'
  constructor
  · exact mineNeighborCount_eq_of_nodup hnd c.q c.r
  · calc mineNeighborCount g c.q c.r ≤ hexDirections.length :=
      List.countP_le_length _
    _ = 6 := rfl

/-- The board of the C4 witness: a non-mine center with two mine
neighbors at `(1,0)` and `(0,1)`. -/
def C4Board : List Hex :=
  [{ q := 0, r := 0 }, { q := 1, r := 0, is_mine := true },
    { q := 0, r := 1, is_mine := true }]

theorem claim_C4_witness :
    coordsNodup C4Board ∧
    (∀ i c c', C4Board.get? i = some c →
      (calculate_adjacent_mines C4Board).get? i = some c' → c.is_mine = false →
      c'.adjacent_mines =
        hexDirections.countP (fun d =>
          decide (∃ n ∈ C4Board, n.q = c.q + d.1 ∧ n.r = c.r + d.2 ∧
            n.is_mine = true)) ∧
      c'.adjacent_mines ≤ 6) :=
  ⟨by decide, claim_C4_adjacent_mines_spec (by decide)⟩

/-- C5: for every radius `R ≥ 0`, `create_hex_grid R` returns exactly
`3R² + 3R + 1` cells, no two cells share the same `(q, r)` pair, every
cell satisfies `|q| ≤ R`, `|r| ≤ R`, `|q + r| ≤ R`, and every cell
starts with `is_mine = false`, `revealed = false`,
`adjacent_mines = 0`. -/
theorem claim_C5_create_board_spec {R : Int} (hR : 0 ≤ R) :
    ((create_hex_grid R).length : Int) = 3 * R ^ 2 + 3 * R + 1 ∧
    coordsNodup (create_hex_grid R) ∧
    ∀ h ∈ create_hex_grid R,
      |h.q| ≤ R ∧ |h.r| ≤ R ∧ |h.q + h.r| ≤ R ∧
      h.is_mine = false ∧ h.revealed = false ∧ h.adjacent_mines = 0 := by
  refine ⟨length_create_hex_grid hR, coordsNodup_create_hex_grid R, ?_⟩
  intro h hm
  obtain ⟨h1, h2, h3, h4, h5, h6, hmk⟩ := mem_create_hex_grid.mp hm
  refine ⟨?_, ?_, ?_, ?_, ?_, ?_⟩
  · rw [abs_le]
    exact ⟨h1, h2⟩
  · rw [abs_le]
    exact ⟨h3, h4⟩
  · rw [abs_le]
    constructor <;> omega
  · rw [hmk]
  · rw [hmk]
  · rw [hmk]

theorem claim_C5_witness :
    (0 : Int) ≤ 2 ∧
    (((create_hex_grid 2).length : Int) = 3 * 2 ^ 2 + 3 * 2 + 1 ∧
      coordsNodup (create_hex_grid 2) ∧
      ∀ h ∈ create_hex_grid 2,
        |h.q| ≤ 2 ∧ |h.r| ≤ 2 ∧ |h.q + h.r| ≤ 2 ∧
        h.is_mine = false ∧ h.revealed = false ∧ h.adjacent_mines = 0) :=
  ⟨by decide, claim_C5_create_board_spec (by decide)⟩

/-- C6: on a board with no mines, if `place_mines` terminates for a
count `C ≤ board size` then exactly `C` cells of the board carry
`is_mine = true`, and no cell's `is_mine` was changed from `true` to
`false` (indeed every other field of every cell is untouched). -/
theorem claim_C6_place_mines_spec {g : List Hex} {C : Nat} {rand : List Nat}
    {g' : List Hex} (hnomine : g.all (fun h => !h.is_mine) = true)
    (_hC : C ≤ g.length) (hterm : place_mines g C rand = some g') :
    mineCount g' = C ∧ gridMineLe g g' := by
  have h0 : mineCount g = 0 := by
    unfold mineCount
    rw [List.countP_eq_zero]
    intro a ha
    have := (List.all_eq_true.mp hnomine) a ha
    simpa using this
  unfold place_mines at hterm
  have hs := place_mines_loop_spec rand g 0 C (by omega) hterm
  exact ⟨by omega, hs.2⟩

theorem claim_C6_witness :
    (create_hex_grid 0).all (fun h => !h.is_mine) = true ∧
    1 ≤ (create_hex_grid 0).length ∧
    place_mines (create_hex_grid 0) 1 [0] =
      some [{ q := 0, r := 0, is_mine := true }] ∧
    (mineCount [{ q := 0, r := 0, is_mine := true }] = 1 ∧
      gridMineLe (create_hex_grid 0) [{ q := 0, r := 0, is_mine := true }]) :=
  ⟨by decide, by decide, by decide,
    @claim_C6_place_mines_spec (create_hex_grid 0) 1 [0]
      [{ q := 0, r := 0, is_mine := true }] (by decide) (by decide) (by decide)⟩

/-- C7: revealing a cell whose `revealed` flag is already set changes
no cell of the board and emits no side-effect event (the reveal sound
is not played); in particular revealing twice leaves the same state as
revealing once, again with no further event. -/
theorem claim_C7_reveal_noop (s : Sounds) (fuel : Nat) {g : List Hex}
    {q r : Int} {h : Hex} (hf : findHex g q r = some h)
    (hrev : h.revealed = true) :
    revealHex s fuel g q r = (g, []) ∧
    revealHex s fuel (revealHex s fuel g q r).1 q r =
      ((revealHex s fuel g q r).1, []) := by
  have h1 := revealHex_of_revealed s fuel hf hrev
  refine ⟨h1, ?_⟩
  rw [h1]
  exact revealHex_of_revealed s fuel hf hrev

theorem claim_C7_witness :
    findHex [{ q := 0, r := 0, revealed := true }] 0 0 =
      some { q := 0, r := 0, revealed := true } ∧
    ({ q := 0, r := 0, revealed := true } : Hex).revealed = true ∧
    (revealHex ⟨true, true, true⟩ 5 [{ q := 0, r := 0, revealed := true }] 0 0 =
        ([{ q := 0, r := 0, revealed := true }], []) ∧
      revealHex ⟨true, true, true⟩ 5
        (revealHex ⟨true, true, true⟩ 5
          [{ q := 0, r := 0, revealed := true }] 0 0).1 0 0 =
        ((revealHex ⟨true, true, true⟩ 5
          [{ q := 0, r := 0, revealed := true }] 0 0).1, [])) :=
  ⟨by decide, by decide,
    @claim_C7_reveal_noop ⟨true, true, true⟩ 5
      [{ q := 0, r := 0, revealed := true }] 0 0
      { q := 0, r := 0, revealed := true } (by decide) (by decide)⟩

/-- C8: the flood fill terminates — once the fuel reaches the number of
unrevealed cells the result no longer depends on it, so the recursion
needs only boundedly many steps — and during one top-level reveal each
cell is processed at most once: `revealed` only moves from `false` to
`true` with every other field untouched (`gridLe`), and the emitted
reveal events are pairwise distinct (no cell's reveal fires twice). -/
theorem claim_C8_reveal_terminates_once (s : Sounds) (g : List Hex)
    (q r : Int) :
    (∀ fuel, unrevealedCount g ≤ fuel →
      revealHex s fuel g q r = revealHex s (unrevealedCount g) g q r) ∧
    (∀ fuel, gridLe g (revealHex s fuel g q r).1) ∧
    (∀ fuel, (revealHex s fuel g q r).2.Nodup) := by
  refine ⟨?_, ?_, ?_⟩
  · intro fuel hb
    exact revealHex_fuel_stable s q r hb
  · intro fuel
    exact revealHex_gridLe s fuel g q r
  · intro fuel
    exact ((revealHex_events_all s fuel).1 g q r).1

theorem claim_C8_witness :
    (unrevealedCount (create_hex_grid 1) ≤ 9 ∧
      revealHex ⟨true, true, true⟩ 9 (create_hex_grid 1) 0 0 =
        revealHex ⟨true, true, true⟩ (unrevealedCount (create_hex_grid 1))
          (create_hex_grid 1) 0 0) ∧
    gridLe (create_hex_grid 1)
      (revealHex ⟨true, true, true⟩ 9 (create_hex_grid 1) 0 0).1 ∧
    (revealHex ⟨true, true, true⟩ 9 (create_hex_grid 1) 0 0).2.Nodup :=
  ⟨⟨by decide,
      (claim_C8_reveal_terminates_once ⟨true, true, true⟩
        (create_hex_grid 1) 0 0).1 9 (by decide)⟩,
    (claim_C8_reveal_terminates_once ⟨true, true, true⟩
      (create_hex_grid 1) 0 0).2.1 9,
    (claim_C8_reveal_terminates_once ⟨true, true, true⟩
      (create_hex_grid 1) 0 0).2.2 9⟩

/-- C9: the cell acted on by a left click is the first cell in the
board's iteration order whose pixel center — `x = 40·1.5·q + offsetX`,
`y = 40·√3·(r + q/2) + offsetY`, with `HEX_SIZE = 40` — lies within one
hex-size radius of the click (the first conjunct identifies the
embedded integer hit test with that real-number formula), and no later
cell is acted on even if its center is also within that radius: the
outcome depends only on the first hit. -/
theorem claim_C9_click_first_hit_wins (s : Sounds) (fuel : Nat)
    (mx my ox oy : Int) (pre post : List Hex) {c : Hex}
    (hpre : ∀ h ∈ pre, hexHit mx my ox oy h = false)
    (hc : hexHit mx my ox oy c = true) :
    (∀ h : Hex, hexHit mx my ox oy h = true ↔
      ((mx : ℝ) - (40 * 1.5 * (h.q : ℝ) + (ox : ℝ))) ^ 2 +
        ((my : ℝ) - (40 * Real.sqrt 3 * ((h.r : ℝ) + (h.q : ℝ) / 2) +
          (oy : ℝ))) ^ 2 < 40 ^ 2) ∧
    clickStep s fuel mx my ox oy (pre ++ c :: post) =
      (if c.is_mine = true then
        ⟨pre ++ c :: post,
          if s.game_over then [SndEvent.gameOverSnd] else [], false, true⟩
      else
        ⟨(revealHex s fuel (pre ++ c :: post) c.q c.r).1,
          (revealHex s fuel (pre ++ c :: post) c.q c.r).2, true, false⟩) := by
  refine ⟨fun h => hexHit_iff_real mx my ox oy h, ?_⟩
  have hfound : (pre ++ c :: post).find? (hexHit mx my ox oy) = some c := by
    rw [find?_append_of_none hpre, find?_cons_eq, if_pos hc]
  by_cases hm : c.is_mine = true
  · rw [if_pos hm]
    exact clickStep_of_find?_mine s fuel mx my ox oy hfound hm
  · rw [if_neg hm]
    exact clickStep_of_find?_safe s fuel mx my ox oy hfound (by simpa using hm)

theorem claim_C9_witness :
    (∀ h ∈ [({ q := 5, r := 5 } : Hex)], hexHit 30 17 0 0 h = false) ∧
    hexHit 30 17 0 0 { q := 0, r := 0 } = true ∧
    hexHit 30 17 0 0 { q := 1, r := 0 } = true ∧
    ((∀ h : Hex, hexHit 30 17 0 0 h = true ↔
      ((30 : ℝ) - (40 * 1.5 * (h.q : ℝ) + ((0 : Int) : ℝ))) ^ 2 +
        ((17 : ℝ) - (40 * Real.sqrt 3 * ((h.r : ℝ) + (h.q : ℝ) / 2) +
          ((0 : Int) : ℝ))) ^ 2 < 40 ^ 2) ∧
    clickStep ⟨true, true, true⟩ 9 30 17 0 0
        ([{ q := 5, r := 5 }] ++ { q := 0, r := 0 } :: [{ q := 1, r := 0 }]) =
      (if ({ q := 0, r := 0 } : Hex).is_mine = true then
        ⟨[{ q := 5, r := 5 }] ++ { q := 0, r := 0 } :: [{ q := 1, r := 0 }],
          if (true : Bool) then [SndEvent.gameOverSnd] else [], false, true⟩
      else
        ⟨(revealHex ⟨true, true, true⟩ 9
            ([{ q := 5, r := 5 }] ++ { q := 0, r := 0 } :: [{ q := 1, r := 0 }])
            ({ q := 0, r := 0 } : Hex).q ({ q := 0, r := 0 } : Hex).r).1,
          (revealHex ⟨true, true, true⟩ 9
            ([{ q := 5, r := 5 }] ++ { q := 0, r := 0 } :: [{ q := 1, r := 0 }])
            ({ q := 0, r := 0 } : Hex).q ({ q := 0, r := 0 } : Hex).r).2,
          true, false⟩)) :=
  ⟨by decide, by decide, by decide,
    @claim_C9_click_first_hit_wins ⟨true, true, true⟩ 9 30 17 0 0
      [{ q := 5, r := 5 }] [{ q := 1, r := 0 }] { q := 0, r := 0 }
      (by decide) (by decide)⟩

/-- C10: a left click whose position is not within one hex-size radius
of any cell's center changes nothing: the grid is returned unchanged
(so no `revealed`, `is_mine` or `adjacent_mines` field of any cell
changes), no sound event is emitted, the loop keeps running and the
game-over path is not taken. -/
theorem claim_C10_click_miss_noop (s : Sounds) (fuel : Nat)
    (mx my ox oy : Int) (g : List Hex)
    (hmiss : ∀ h ∈ g, hexHit mx my ox oy h = false) :
    clickStep s fuel mx my ox oy g = ⟨g, [], true, false⟩ := by
  apply clickStep_of_find?_none
  rw [List.find?_eq_none]
  intro x hx
  rw [hmiss x hx]
  exact Bool.false_ne_true

theorem claim_C10_witness :
    (∀ h ∈ [({ q := 0, r := 0 } : Hex), { q := 1, r := 0 }],
      hexHit 500 500 0 0 h = false) ∧
    clickStep ⟨true, true, true⟩ 9 500 500 0 0
        [{ q := 0, r := 0 }, { q := 1, r := 0 }] =
      ⟨[{ q := 0, r := 0 }, { q := 1, r := 0 }], [], true, false⟩ :=
  ⟨by decide,
    claim_C10_click_miss_noop ⟨true, true, true⟩ 9 500 500 0 0
      [{ q := 0, r := 0 }, { q := 1, r := 0 }] (by decide)⟩
